import Mathlib

/-!
Verification development for the win-cli-mcp-server repository.

The definitions below are a shallow embedding of the TypeScript sources:
  * `src/utils/validation.ts` (command parsing, blocklists, path handling),
  * `src/index.ts` (`CLIServer.validateCommand` and the `execute_command`
    request handler),
  * `src/utils/ssh.ts` (`SSHConnection` reconnect bookkeeping and
    `SSHConnectionPool.getConnection`).

Paths are modelled as `List Char` internally with `String` wrappers that keep
the source's function names.  The sources call Node's `path.win32` functions
(`normalize`, `basename`, `sep`); those library routines are embedded as well
(they are part of the observable behaviour of the repository's functions).
-/

/-- Character class of Windows path separators, as in Node's `path.win32`
(`isPathSeparator`): both the backslash and the forward slash. -/
def isPathSep (c : Char) : Bool := c = '\\' || c = '/'

/-- ASCII letter test, as in Node's `isWindowsDeviceRoot`. -/
def isAsciiLetter (c : Char) : Bool :=
  ('A' ≤ c && c ≤ 'Z') || ('a' ≤ c && c ≤ 'z')

/-- JavaScript line terminators (`\n`, `\r`, U+2028, U+2029); the JS regex
atom `.` matches any character except these. -/
def isLineTerm (c : Char) : Bool :=
  c = Char.ofNat 10 || c = Char.ofNat 13 || c = Char.ofNat 0x2028 || c = Char.ofNat 0x2029

/-- ASCII lower-casing of one character, modelling the effect of JavaScript's
`String.prototype.toLowerCase` on the ASCII range. -/
def lowerChar (c : Char) : Char :=
  if 'A' ≤ c && c ≤ 'Z' then Char.ofNat (c.toNat + 32) else c

/-- ASCII upper-casing of one character, modelling the effect of JavaScript's
`String.prototype.toUpperCase` on the ASCII range. -/
def upperChar (c : Char) : Char :=
  if 'a' ≤ c && c ≤ 'z' then Char.ofNat (c.toNat - 32) else c

/-- Lower-case a character list. -/
def lowerL (l : List Char) : List Char := l.map lowerChar

/-- Lower-case a string (`s.toLowerCase()` on the ASCII range). -/
def lowerS (s : String) : String := ⟨lowerL s.data⟩

/-- `l` starts with `p` (JavaScript `l.startsWith(p)` on exploded strings). -/
def listStartsWith : List Char → List Char → Bool
  | _, [] => true
  | [], _ :: _ => false
  | a :: as, b :: bs => a = b && listStartsWith as bs

/-- JavaScript `hay.includes(needle)` / regex search for a literal:
`needle` occurs contiguously inside `hay`. -/
def listSubstr : List Char → List Char → Bool
  | hay, needle =>
    if listStartsWith hay needle then true
    else
      match hay with
      | [] => false
      | _ :: t => listSubstr t needle

/-- Membership of a character in a character list (JS `s.includes(c)`). -/
def listContains (l : List Char) (c : Char) : Bool := l.contains c

/-- Split a character list at path separators, keeping empty chunks, so that
`splitSegs "a\\\\b"` is `["a", "", "b"]`.  The chunks are exactly the
segments Node's `normalizeString` walks over. -/
def splitSegs : List Char → List (List Char)
  | [] => [[]]
  | c :: cs =>
    if isPathSep c then [] :: splitSegs cs
    else
      match splitSegs cs with
      | s :: ss => (c :: s) :: ss
      | [] => [[c]]

/-- Join segments with a single backslash (Node's `normalizeString` result
string, which uses the win32 separator). -/
def joinSegs : List (List Char) → List Char
  | [] => []
  | [s] => s
  | s :: t :: ss => s ++ '\\' :: joinSegs (t :: ss)

/-- One step of Node's `normalizeString` segment resolution: empty and `.`
segments are dropped; `..` pops the previous segment unless the accumulator
is empty or already ends in `..`, in which case it is kept only when
`allowAbove` (the path is relative) holds; other segments are appended. -/
def segStep (allowAbove : Bool) (acc : List (List Char)) (seg : List Char) :
    List (List Char) :=
  if seg = [] ∨ seg = ['.'] then acc
  else if seg = ['.', '.'] then
    if acc ≠ [] ∧ acc.getLast? ≠ some ['.', '.'] then acc.dropLast
    else if allowAbove then acc ++ [['.', '.']] else acc
  else acc ++ [seg]

/-- Resolve `.` and `..` segments (Node's `normalizeString` on the segment
level). -/
def processSegs (allowAbove : Bool) (segs : List (List Char)) : List (List Char) :=
  segs.foldl (segStep allowAbove) []

/-- Node's `normalizeString(p, allowAboveRoot, '\\', isPathSeparator)`:
split at separators, resolve dot segments, join with single backslashes.
Repeated separators collapse because empty segments are dropped. -/
def normalizeString (p : List Char) (allowAbove : Bool) : List Char :=
  joinSegs (processSegs allowAbove (splitSegs p))

/-- Final assembly step of Node's `path.win32.normalize`: the resolved tail is
computed from the input after the root (`restIn`), an empty relative tail
becomes `.`, a trailing separator of the input is preserved on a non-empty
tail, and the device/absolute markers are glued back on. -/
def assembleNorm (device : Option (List Char)) (isAbs : Bool) (lastSep : Bool)
    (restIn : List Char) : List Char :=
  let tail0 := if restIn = [] then [] else normalizeString restIn (!isAbs)
  let tail1 := if tail0 = [] ∧ isAbs = false then ['.'] else tail0
  let tail2 := if tail1 ≠ [] ∧ lastSep then tail1 ++ ['\\'] else tail1
  match device with
  | none => if isAbs then '\\' :: tail2 else tail2
  | some d => if isAbs then d ++ '\\' :: tail2 else d ++ tail2

/-- Node's `path.win32.normalize`, ported structurally: empty input yields
`.`, a single separator yields `\\`, then the root is parsed (UNC prefix,
device root `X:` with or without a following separator, or a bare leading
separator) and the remainder is segment-normalized by `assembleNorm`.
A UNC root with nothing after it returns early with a trailing separator. -/
def win32Normalize (p : List Char) : List Char :=
  match p with
  | [] => ['.']
  | [c] => if isPathSep c then ['\\'] else [c]
  | c1 :: c2 :: r =>
    let lastSep := isPathSep ((c1 :: c2 :: r).getLast (by simp))
    if isPathSep c1 then
      if isPathSep c2 then
        let fp := r.takeWhile (fun c => !isPathSep c)
        let r1 := r.drop fp.length
        if fp ≠ [] ∧ r1 ≠ [] then
          let seps := r1.takeWhile isPathSep
          let r2 := r1.drop seps.length
          if r2 ≠ [] then
            let sp := r2.takeWhile (fun c => !isPathSep c)
            let r3 := r2.drop sp.length
            if r3 = [] then
              '\\' :: '\\' :: (fp ++ '\\' :: (sp ++ ['\\']))
            else
              assembleNorm (some ('\\' :: '\\' :: (fp ++ '\\' :: sp))) true lastSep r3
          else assembleNorm none true lastSep p
        else assembleNorm none true lastSep p
      else
        assembleNorm none true lastSep (c2 :: r)
    else if isAsciiLetter c1 ∧ c2 = ':' then
      match r with
      | [] => assembleNorm (some [c1, ':']) false lastSep []
      | c3 :: r2 =>
        if isPathSep c3 then assembleNorm (some [c1, ':']) true lastSep r2
        else assembleNorm (some [c1, ':']) false lastSep (c3 :: r2)
    else
      assembleNorm none false lastSep p

/-- Node's `path.normalize` (win32 flavour) on strings, as called by
`validation.ts`. -/
def pathNormalize (p : String) : String := ⟨win32Normalize p.data⟩

/-- Remove trailing path separators (the `matchedSlash` skip in Node's
`path.win32.basename`). -/
def dropTrailingSeps (l : List Char) : List Char :=
  (l.reverse.dropWhile isPathSep).reverse

/-- Node's `path.win32.basename(p)` (no extension argument): ignore a leading
drive specifier `X:`, strip trailing separators, then keep the final
separator-free run; all separators exhausted yields the empty string. -/
def basenameW (p : List Char) : List Char :=
  let p1 :=
    match p with
    | a :: b :: rest => if isAsciiLetter a ∧ b = ':' then rest else p
    | _ => p
  let t := dropTrailingSeps p1
  (t.reverse.takeWhile (fun c => !isPathSep c)).reverse

/-- The recognised executable suffixes of `validation.ts`
(regex `/\.(exe|cmd|bat)$/i`). -/
def exeSuffixes : List (List Char) := [".exe".data, ".cmd".data, ".bat".data]

/-- Case-insensitive test for a recognised executable suffix
(`/\.(exe|cmd|bat)$/i.test(l)`). -/
def hasExeSuffix (l : List Char) : Bool :=
  exeSuffixes.any fun suf => listStartsWith (lowerL l).reverse (lowerL suf).reverse

/-- `l.replace(/\.(exe|cmd|bat)$/i, '')`: drop the four-character suffix when
present. -/
def stripExeSuffix (l : List Char) : List Char :=
  if hasExeSuffix l then l.take (l.length - 4) else l

/-- `extractCommandName` from `validation.ts`: `path.basename`, strip one
recognised extension, lower-case. -/
def extractCommandName (command : String) : String :=
  ⟨lowerL (stripExeSuffix (basenameW command.data))⟩

/-- `isCommandBlocked` from `validation.ts`: the extracted name must equal a
blocked entry, or that entry with `.exe`/`.cmd`/`.bat` appended,
case-insensitively. -/
def isCommandBlocked (command : String) (blockedCommands : List String) : Bool :=
  let commandName := extractCommandName (lowerS command)
  blockedCommands.any fun blocked =>
    commandName == lowerS blocked ||
    commandName == lowerS blocked ++ ".exe" ||
    commandName == lowerS blocked ++ ".cmd" ||
    commandName == lowerS blocked ++ ".bat"

/-- Element of the JavaScript regex fragment used to model the pattern
`new RegExp('^' + blocked + '$', 'i')` built by `isArgumentBlocked`:
a literal character or the wildcard `.`. -/
inductive RElem where
  | lit (c : Char)
  | dotAny
deriving DecidableEq

/-- Regex metacharacters other than `.`; a configured pattern containing one
of these is outside the modelled fragment. -/
def regexMetaNonDot (c : Char) : Bool :=
  c = '*' || c = '+' || c = '?' || c = '^' || c = '$' || c = '(' || c = ')' ||
  c = '[' || c = ']' || c = Char.ofNat 123 || c = Char.ofNat 125 || c = '|' ||
  c = '\\'

/-- Compile a configured pattern into the modelled fragment: `.` becomes the
wildcard, other non-metacharacters are literals, any other metacharacter
falls outside the model. -/
def compileFrag : List Char → Option (List RElem)
  | [] => some []
  | c :: cs =>
    if c = '.' then (compileFrag cs).map (fun es => RElem.dotAny :: es)
    else if regexMetaNonDot c then none
    else (compileFrag cs).map (fun es => RElem.lit c :: es)

/-- Anchored match of a compiled fragment against a full token, with the
JavaScript `i` flag (ASCII case folding); the wildcard matches any character
except a line terminator, as the JS `.` atom does. -/
def reMatch : List RElem → List Char → Bool
  | [], [] => true
  | [], _ :: _ => false
  | _ :: _, [] => false
  | RElem.lit c :: es, a :: as => lowerChar c = lowerChar a && reMatch es as
  | RElem.dotAny :: es, a :: as => !isLineTerm a && reMatch es as

/-- Model of `new RegExp('^' + pat + '$', 'i').test(s)` for patterns inside
the literal-and-dot fragment; patterns outside it are not modelled and
return `false`. -/
def jsAnchoredTestCI (pat : String) (s : String) : Bool :=
  match compileFrag pat.data with
  | some es => reMatch es s.data
  | none => false

/-- `isArgumentBlocked` from `validation.ts`: some token matches some blocked
pattern under the anchored case-insensitive regex. -/
def isArgumentBlocked (args : List String) (blockedArguments : List String) : Bool :=
  args.any fun arg => blockedArguments.any fun blocked => jsAnchoredTestCI blocked arg

/-- Shell profile as used by `validateShellOperators` and the
`execute_command` handler; an absent `blockedOperators` field is modelled by
the empty list, exactly the case the source skips. -/
structure ShellConfig where
  enabled : Bool
  command : String
  args : List String
  blockedOperators : List String

/-- `validateShellOperators` from `validation.ts`: with a non-empty blocked
operator list the source builds an alternation of regex-escaped operators and
throws when it matches, which holds exactly when some operator occurs as a
literal substring of the raw command. -/
def validateShellOperators (command : String) (shellConfig : ShellConfig) :
    Except String Unit :=
  if shellConfig.blockedOperators.isEmpty then Except.ok ()
  else if shellConfig.blockedOperators.any (fun op => listSubstr command.data op.data) then
    Except.error ("Command contains blocked operators for this shell: " ++
      String.intercalate ", " shellConfig.blockedOperators)
  else Except.ok ()

/-- JavaScript whitespace recognised by `String.prototype.trim` (the
characters relevant to this code base: space, tab, line terminators, NBSP,
BOM). -/
def isJsSpace (c : Char) : Bool :=
  c = ' ' || c = Char.ofNat 9 || c = Char.ofNat 10 || c = Char.ofNat 11 ||
  c = Char.ofNat 12 || c = Char.ofNat 13 || c = Char.ofNat 0xa0 ||
  c = Char.ofNat 0xfeff || c = Char.ofNat 0x2028 || c = Char.ofNat 0x2029

/-- `s.trim()` on exploded strings. -/
def jsTrim (l : List Char) : List Char :=
  ((l.dropWhile isJsSpace).reverse.dropWhile isJsSpace).reverse

/-- One character of `parseCommand`'s quote-aware token scan.  State: tokens
so far, current token, active quote character (if inside quotes).  A quote of
the active kind closes and always pushes the current token; an unquoted space
pushes a non-empty current token; everything else is accumulated. -/
def tokStep (st : List (List Char) × List Char × Option Char) (c : Char) :
    List (List Char) × List Char × Option Char :=
  match st with
  | (toks, cur, q) =>
    if (c = '"' ∨ c = Char.ofNat 39) ∧ (q = none ∨ q = some c) then
      match q with
      | some _ => (toks ++ [cur], [], none)
      | none => (toks, cur, some c)
    else if c = ' ' ∧ q = none then
      if cur ≠ [] then (toks ++ [cur], [], q) else (toks, cur, q)
    else (toks, cur ++ [c], q)

/-- The token list produced by `parseCommand`'s scanning loop, including the
final push of a pending token. -/
def tokenizeCmd (l : List Char) : List (List Char) :=
  match l.foldl tokStep ([], [], none) with
  | (toks, cur, _) => if cur ≠ [] then toks ++ [cur] else toks

/-- Join tokens with single spaces (`commandTokens.join(' ')`). -/
def joinSp : List (List Char) → List Char
  | [] => []
  | [s] => s
  | s :: t :: ss => s ++ ' ' :: joinSp (t :: ss)

/-- The `while` loop of `parseCommand` that re-assembles a Windows path with
spaces: `acc` is `commandTokens`, the third argument the unprocessed tokens.
A potential command ending in a recognised suffix (or a separator-free single
token) returns; a potential command containing a backslash keeps
accumulating; otherwise the first token is the command.  When the loop runs
out of tokens the accumulated tokens are the command and the remaining slice
the arguments. -/
def parseLoop (tokens : List (List Char)) :
    List (List Char) → List (List Char) → List Char × List (List Char)
  | acc, [] => (joinSp acc, tokens.drop acc.length)
  | acc, t :: rs =>
    let acc2 := acc ++ [t]
    let potential := joinSp acc2
    if hasExeSuffix potential ∨ (¬ listContains potential '\\' ∧ acc2.length = 1) then
      (potential, rs)
    else if listContains potential '\\' then
      parseLoop tokens acc2 rs
    else
      (joinSp (tokens.take 1), tokens.drop 1)

/-- `parseCommand` from `validation.ts`: trim, tokenize honouring quotes,
return a single-token command directly when it has no space and no backslash,
otherwise run the path re-assembly loop. -/
def parseCommand (fullCommand : String) : String × List String :=
  let t := jsTrim fullCommand.data
  if t = [] then ("", [])
  else
    match tokenizeCmd t with
    | [] => ("", [])
    | t0 :: rest =>
      if ¬ listContains t0 ' ' ∧ ¬ listContains t0 '\\' then
        (⟨t0⟩, rest.map (fun l => (⟨l⟩ : String)))
      else
        match parseLoop (t0 :: rest) [] (t0 :: rest) with
        | (cmd, args) => (⟨cmd⟩, args.map (fun l => (⟨l⟩ : String)))

/-- `isPathAllowed` from `validation.ts`: the `path.normalize`d, lower-cased
candidate must start (raw string prefix) with some normalised, lower-cased
allowed path. -/
def isPathAllowed (testPath : String) (allowedPaths : List String) : Bool :=
  let normalizedPath := lowerL (win32Normalize testPath.data)
  allowedPaths.any fun allowedPath =>
    listStartsWith normalizedPath (lowerL (win32Normalize allowedPath.data))

/-- The Git-Bash match `normalized.match(/^\\([a-zA-Z])\\(.*)/)` of
`normalizeWindowsPath`: a backslash, one letter, a backslash; the captured
remainder stops at the first line terminator because the JS `.` atom does. -/
def gitbashSplit : List Char → Option (Char × List Char)
  | a :: l :: b :: rest =>
    if a = '\\' ∧ isAsciiLetter l = true ∧ b = '\\' then
      some (l, rest.takeWhile (fun c => !isLineTerm c))
    else none
  | _ => none

/-- The test `/^[a-zA-Z]:\\.+/.test(normalized)` of `normalizeWindowsPath`:
letter, colon, backslash, then at least one non-line-terminator character. -/
def driveAbsTest : List Char → Bool
  | l :: a :: b :: c :: _ =>
    isAsciiLetter l && (a = ':') && (b = '\\') && !isLineTerm c
  | _ => false

/-- `normalizeWindowsPath` from `validation.ts` on exploded strings: forward
slashes become backslashes; a Git-Bash drive spelling is rewritten to an
upper-cased drive; an already drive-absolute path is normalized as is; a
path with a bare leading separator gets the default `C:` drive; everything
then goes through `path.normalize`. -/
def nwpL (p : List Char) : List Char :=
  let normalized := p.map fun c => if c = '/' then '\\' else c
  match gitbashSplit normalized with
  | some (l, rest) => win32Normalize (upperChar l :: ':' :: '\\' :: rest)
  | none =>
    if driveAbsTest normalized then win32Normalize normalized
    else if listStartsWith normalized ['\\'] then
      win32Normalize ('C' :: ':' :: normalized)
    else win32Normalize normalized

/-- `normalizeWindowsPath` from `validation.ts`. -/
def normalizeWindowsPath (inputPath : String) : String := ⟨nwpL inputPath.data⟩

/-- One iteration of the deduplication/nesting loop of
`normalizeAllowedPaths`: skip exact duplicates, skip a directory nested under
a kept entry (`dir.startsWith(parent + path.sep)`), remove kept entries
nested under the new directory, then append it. -/
def napStep (result : List (List Char)) (dir : List Char) : List (List Char) :=
  if result.contains dir then result
  else if result.any (fun parent => listStartsWith dir (parent ++ ['\\'])) then
    result
  else (result.filter (fun r => !listStartsWith r (dir ++ ['\\']))) ++ [dir]

/-- `normalizeAllowedPaths` from `validation.ts`: normalize and lower-case
every path, then fold the deduplication/nesting step over the list. -/
def normalizeAllowedPaths (paths : List String) : List String :=
  ((paths.map fun p => lowerL (nwpL p.data)).foldl napStep []).map
    fun l => (⟨l⟩ : String)

/-- Security section of the server configuration (`types/config.ts`),
restricted to the fields `validateCommand` and the `execute_command` handler
read. -/
structure SecurityConfig where
  maxCommandLength : Nat
  blockedCommands : List String
  blockedArguments : List String
  allowedPaths : List String
  restrictWorkingDirectory : Bool
  enableInjectionProtection : Bool

/-- The shells map of the server configuration. -/
structure ShellsConfig where
  powershell : ShellConfig
  cmd : ShellConfig
  gitbash : ShellConfig

/-- Shell selector of an `execute_command` request. -/
inductive ShellKey where
  | powershell
  | cmd
  | gitbash
deriving DecidableEq

/-- Look up a shell profile by key. -/
def ShellsConfig.get (s : ShellsConfig) : ShellKey → ShellConfig
  | ShellKey.powershell => s.powershell
  | ShellKey.cmd => s.cmd
  | ShellKey.gitbash => s.gitbash

/-- Server configuration as read by the handler. -/
structure ServerConfig where
  security : SecurityConfig
  shells : ShellsConfig

/-- The distinct validation failures `CLIServer.validateCommand` can raise,
in source order. -/
inductive VError where
  | blockedOperator
  | blockedCommand
  | blockedArgument
  | tooLong
deriving DecidableEq

/-- `CLIServer.validateCommand` from `src/index.ts`: operator-injection check
(when enabled), then parse, then blocked-command check, then blocked-argument
check, then the command-length check, failing with the first violated rule. -/
def validateCommand (config : ServerConfig) (shell : ShellKey) (command : String) :
    Except VError Unit :=
  if config.security.enableInjectionProtection ∧
      (validateShellOperators command (config.shells.get shell)).isOk = false then
    Except.error VError.blockedOperator
  else
    match parseCommand command with
    | (executable, args) =>
      if isCommandBlocked executable config.security.blockedCommands then
        Except.error VError.blockedCommand
      else if isArgumentBlocked args config.security.blockedArguments then
        Except.error VError.blockedArgument
      else if config.security.maxCommandLength < command.length then
        Except.error VError.tooLong
      else Except.ok ()

/-- An `execute_command` request after schema parsing. -/
structure ExecRequest where
  shell : ShellKey
  command : String
  workingDir : Option String

/-- A record of one `spawn` call: the shell executable, its arguments with
the raw command appended, and the working directory. -/
structure SpawnCall where
  executable : String
  args : List String
  cwd : String
deriving DecidableEq

/-- Errors of the `execute_command` handler before any process is spawned. -/
inductive HandlerError where
  | shellDisabled
  | validation (e : VError)
  | outsideAllowedPaths
deriving DecidableEq

/-- The `execute_command` handler of `src/index.ts` up to the spawn call:
the zod schema admits only enabled shells, `validateCommand` runs next, the
resolved working directory (the request's, resolved, or the process cwd) is
checked with a raw `startsWith` against the configured allowed paths when
restriction is enabled, and only then is the child process spawned.  The
first component records the spawn calls made; `resolvePath` stands for the
environment-dependent `path.resolve`. -/
def executeCommandHandler (resolvePath : String → String) (processCwd : String)
    (config : ServerConfig) (req : ExecRequest) :
    List SpawnCall × Except HandlerError Unit :=
  if (config.shells.get req.shell).enabled = false then
    ([], Except.error HandlerError.shellDisabled)
  else
    match validateCommand config req.shell req.command with
    | Except.error e => ([], Except.error (HandlerError.validation e))
    | Except.ok _ =>
      let workingDir :=
        match req.workingDir with
        | some d => resolvePath d
        | none => processCwd
      if config.security.restrictWorkingDirectory ∧
          ¬ config.security.allowedPaths.any
              (fun allowedPath => listStartsWith workingDir.data allowedPath.data) then
        ([], Except.error HandlerError.outsideAllowedPaths)
      else
        ([{ executable := (config.shells.get req.shell).command,
            args := (config.shells.get req.shell).args ++ [req.command],
            cwd := workingDir }],
         Except.ok ())

/-- Reconnect-relevant state of an `SSHConnection` (`src/utils/ssh.ts`):
connection flag, the pending (armed, uncancelled) reconnect timer with its
fire time, and the last-activity timestamp, in milliseconds. -/
structure SSHConnState where
  isConnected : Bool
  reconnectTimer : Option Nat
  lastActivity : Nat
deriving DecidableEq

/-- `SSHConnection.scheduleReconnect`: any pending timer is cleared, then a
new 5-second timer is armed only when the last activity was within the
30-minute window. -/
def scheduleReconnect (now : Nat) (s : SSHConnState) : SSHConnState :=
  if now - s.lastActivity < 30 * 60 * 1000 then
    { s with reconnectTimer := some (now + 5000) }
  else
    { s with reconnectTimer := none }

/-- The `close` (equally `end`/`error`) listener installed by
`SSHConnection.setupClientEvents`: mark the connection down and call
`scheduleReconnect`.  The listeners are installed in the constructor and are
never removed, so this fires for every transport close, including the one
caused by an explicit `disconnect`. -/
def handleCloseEvent (now : Nat) (s : SSHConnState) : SSHConnState :=
  scheduleReconnect now { s with isConnected := false }

/-- `SSHConnection.disconnect`: clear any pending reconnect timer and, when
connected, end the transport (which makes the client emit `close` later) and
drop the connected flag. -/
def disconnect (s : SSHConnState) : SSHConnState :=
  { s with reconnectTimer := none, isConnected := false }

/-- Observable action of the SSH connection pool. -/
inductive PoolEvent where
  | connectAttempt (id : String)
deriving DecidableEq

/-- `SSHConnectionPool.getConnection` from `src/utils/ssh.ts`, with the pool
map as an association list from connection id to the session's
`isConnected` flag: an unknown id creates a session, stores it and connects;
a known inactive session is reconnected; a known active session is returned
as is.  No branch consults any session ceiling and no branch fails. -/
def getConnection (pool : List (String × Bool)) (connectionId : String) :
    List (String × Bool) × List PoolEvent :=
  match pool.lookup connectionId with
  | none =>
    (pool ++ [(connectionId, true)], [PoolEvent.connectAttempt connectionId])
  | some false =>
    (pool.map (fun e => if e.1 = connectionId then (e.1, true) else e),
     [PoolEvent.connectAttempt connectionId])
  | some true => (pool, [])

/-- Initial session state used to exercise the reconnect bookkeeping: a
connected session with no pending timer and last activity at time 0. -/
def sshS0 : SSHConnState :=
  { isConnected := true, reconnectTimer := none, lastActivity := 0 }

/-- A pool already holding five connected sessions, the default
`maxConcurrentSessions` of the configuration. -/
def pool5 : List (String × Bool) :=
  [("s1", true), ("s2", true), ("s3", true), ("s4", true), ("s5", true)]

/-- Shell profile for `cmd` in the end-to-end scenario. -/
def cmdShell : ShellConfig :=
  { enabled := true, command := "cmd.exe", args := ["/c"],
    blockedOperators := ["&", "|", ";", "`"] }

/-- A disabled placeholder profile. -/
def offShell : ShellConfig :=
  { enabled := false, command := "", args := [], blockedOperators := [] }

/-- End-to-end scenario configuration: blocklist `rm`/`del`, allowed root
`C:\work`, directory restriction and injection protection enabled. -/
def cfgDelScenario : ServerConfig :=
  { security :=
      { maxCommandLength := 2000, blockedCommands := ["rm", "del"],
        blockedArguments := [], allowedPaths := ["C:\\work"],
        restrictWorkingDirectory := true, enableInjectionProtection := true },
    shells := { powershell := offShell, cmd := cmdShell, gitbash := offShell } }

/-- Configuration in which the command `del & x` violates the operator rule,
the blocked-command rule and the length rule at once. -/
def cfgOpBlock : ServerConfig :=
  { security :=
      { maxCommandLength := 3, blockedCommands := ["del"],
        blockedArguments := [], allowedPaths := [],
        restrictWorkingDirectory := false, enableInjectionProtection := true },
    shells :=
      { powershell := offShell,
        cmd := { enabled := true, command := "cmd.exe", args := ["/c"],
                 blockedOperators := ["&"] },
        gitbash := offShell } }

/-- Like `cfgOpBlock` but with injection protection disabled. -/
def cfgNoInj : ServerConfig :=
  { security :=
      { maxCommandLength := 3, blockedCommands := ["del"],
        blockedArguments := [], allowedPaths := [],
        restrictWorkingDirectory := false, enableInjectionProtection := false },
    shells := { powershell := offShell, cmd := cmdShell, gitbash := offShell } }

/-- A configured pattern free of every regex metacharacter (including `.`). -/
def noRegexMeta (p : String) : Bool :=
  p.data.all fun c => !(c = '.') && !regexMetaNonDot c

/-- The `..` segment. -/
def dd : List Char := ['.', '.']

/-- A segment that `segStep` simply appends. -/
def isNormalSeg (s : List Char) : Prop := s ≠ [] ∧ s ≠ ['.'] ∧ s ≠ dd

/-- A segment containing no path separator. -/
def sepFreeSeg (s : List Char) : Prop := ∀ c ∈ s, isPathSep c = false

/-- Segment lists in the image of `processSegs`: a (possibly empty) leading
run of `..` segments — allowed only for relative resolution — followed by
normal segments. -/
def CleanSegs (allowAbove : Bool) (segs : List (List Char)) : Prop :=
  ∃ k rest, segs = List.replicate k dd ++ rest ∧ (k ≠ 0 → allowAbove = true) ∧
    ∀ s ∈ rest, isNormalSeg s

/-- Outputs of `path.win32.normalize` on separator-free-headed input, as
needed for re-normalization: the dot forms, a single non-separator
character, a drive-absolute root with a clean absolute tail, or a clean
relative join whose first segment does not spell a drive. -/
inductive GoodShape : List Char → Prop where
  | dot : GoodShape ['.']
  | dotSep : GoodShape ['.', '\\']
  | single : ∀ c, isPathSep c = false → GoodShape [c]
  | driveAbsNil : ∀ l, isAsciiLetter l = true → GoodShape [l, ':', '\\']
  | driveAbs : ∀ l cl t, isAsciiLetter l = true → CleanSegs false cl →
      (∀ s ∈ cl, sepFreeSeg s) → cl ≠ [] →
      (t = joinSegs cl ∨ t = joinSegs cl ++ ['\\']) →
      GoodShape (l :: ':' :: '\\' :: t)
  | relJoin : ∀ cl t, CleanSegs true cl → (∀ s ∈ cl, sepFreeSeg s) → cl ≠ [] →
      (∀ l rest2, cl.head? = some (l :: ':' :: rest2) → isAsciiLetter l = false) →
      (t = joinSegs cl ∨ t = joinSegs cl ++ ['\\']) →
      GoodShape t

/-- `X:` alone or `X:` followed by a non-separator: the drive-relative
result forms on which a second normalization pass may differ. -/
def driveRelFormB : List Char → Bool
  | l :: ':' :: [] => isAsciiLetter l
  | l :: ':' :: c :: _ => isAsciiLetter l && !isPathSep c
  | _ => false

/-- The head of the list, when present, is not a path separator. -/
def notSepLead (s : List Char) : Prop :=
  ∀ c, s.head? = some c → isPathSep c = false

/-- Tail of a join after its first segment's first character. -/
def joinTail (cs : List Char) (cl' : List (List Char)) : List Char :=
  match cl' with
  | [] => cs
  | t1 :: ts => cs ++ '\\' :: joinSegs (t1 :: ts)

/-- No entry extends another entry past a separator (raw `startsWith`
against `parent + sep`, the comparison the matcher itself uses). -/
def NoNest (res : List (List Char)) : Prop :=
  ∀ a ∈ res, ∀ b ∈ res, a ≠ b → listStartsWith a (b ++ ['\\']) = false

/-- C1: `validation.ts` compares the normalised candidate against every
normalised allowed root with a raw `startsWith`, so the candidate
`C:\Users\testXYZ` is accepted under the single root `C:\Users\test`, even
though it neither equals the root nor extends it at a separator boundary —
the segment-boundary matching the specification demands does not hold. -/
theorem C1_raw_prefix_match :
    isPathAllowed "C:\\Users\\testXYZ" ["C:\\Users\\test"] = true ∧
    lowerS (pathNormalize "C:\\Users\\testXYZ") ≠ lowerS (pathNormalize "C:\\Users\\test") ∧
    listStartsWith (lowerS (pathNormalize "C:\\Users\\testXYZ")).data
      ((lowerS (pathNormalize "C:\\Users\\test")).data ++ ['\\']) = false := by
  refine ⟨rfl, ?_, rfl⟩
  decide

/-- C3: after an explicit `disconnect` the pending reconnect timer is
cleared, but the persistent `close` listener re-arms a reconnect timer when
the transport (ended by that very `disconnect`) emits `close` while the
last activity is still within the 30-minute window — a reconnect attempt is
scheduled after the explicit disconnect. -/
theorem C3_reconnect_after_disconnect :
    (disconnect sshS0).reconnectTimer = none ∧
    handleCloseEvent 1000 (disconnect sshS0) =
      { isConnected := false, reconnectTimer := some 6000, lastActivity := 0 } := by
  exact ⟨rfl, rfl⟩

/-- C4: `SSHConnectionPool.getConnection` consults no session ceiling: with
five sessions already pooled (the default `maxConcurrentSessions`), a
request for a sixth connection id creates and connects a sixth session
instead of failing. -/
theorem C4_no_session_ceiling :
    pool5.length = 5 ∧
    getConnection pool5 "s6" =
      (pool5 ++ [("s6", true)], [PoolEvent.connectAttempt "s6"]) ∧
    (getConnection pool5 "s6").1.length = 6 := by
  exact ⟨rfl, rfl, rfl⟩

/-- Helper: `isOk` of a success. -/
theorem isOk_ok : (Except.ok () : Except String Unit).isOk = true := rfl

/-- Helper: `isOk` of a failure. -/
theorem isOk_err (m : String) : (Except.error m : Except String Unit).isOk = false := rfl

/-- C9: `validateShellOperators` fails exactly when the profile declares a
non-empty blocked-operator list and some declared operator occurs as a
substring of the raw command; a profile omitting `|` admits
`Get-Process | Select Name` while one declaring `|` rejects it. -/
theorem C9_operator_check :
    (∀ (command : String) (shellConfig : ShellConfig),
        (validateShellOperators command shellConfig).isOk = false ↔
          shellConfig.blockedOperators ≠ [] ∧
          ∃ op ∈ shellConfig.blockedOperators, listSubstr command.data op.data = true) ∧
    (validateShellOperators "Get-Process | Select Name"
        { enabled := true, command := "powershell.exe", args := [],
          blockedOperators := ["&", ";", "`"] }).isOk = true ∧
    (validateShellOperators "Get-Process | Select Name"
        { enabled := true, command := "powershell.exe", args := [],
          blockedOperators := ["&", ";", "`", "|"] }).isOk = false := by
  refine ⟨?_, rfl, rfl⟩
  intro command sc
  unfold validateShellOperators
  by_cases h1 : sc.blockedOperators.isEmpty
  · rw [if_pos h1, isOk_ok]
    rw [List.isEmpty_iff] at h1
    simp [h1]
  · rw [if_neg h1]
    rw [List.isEmpty_iff] at h1
    cases hA : sc.blockedOperators.any (fun op => listSubstr command.data op.data) with
    | true =>
      rw [if_pos rfl, isOk_err]
      rw [List.any_eq_true] at hA
      exact iff_of_true rfl ⟨h1, hA⟩
    | false =>
      rw [if_neg (by simp), isOk_ok]
      refine iff_of_false (by simp) ?_
      rintro ⟨-, op, hmem, hsub⟩
      rw [List.any_eq_false] at hA
      exact absurd hsub (by simpa using hA op hmem)

/-- C2: whenever `validateCommand` fails for an enabled shell, the
`execute_command` handler returns that validation error and records no spawn
call: no process is started for a request that fails validation. -/
theorem C2_no_spawn_on_validation_failure :
    ∀ (resolvePath : String → String) (processCwd : String) (config : ServerConfig)
      (req : ExecRequest) (e : VError),
      (config.shells.get req.shell).enabled = true →
      validateCommand config req.shell req.command = Except.error e →
      executeCommandHandler resolvePath processCwd config req =
        ([], Except.error (HandlerError.validation e)) := by
  intro rp cwd cfg req e hen hval
  unfold executeCommandHandler
  rw [hen, hval]
  simp

/-- C2 witness: the scenario `{shell: cmd, command: "del foo.txt",
workingDir: C:\work}` under blocklist `["rm","del"]` fails with the
blocked-command error and spawns nothing. -/
theorem C2_witness :
    executeCommandHandler id "C:\\work" cfgDelScenario
      { shell := ShellKey.cmd, command := "del foo.txt", workingDir := some "C:\\work" } =
      ([], Except.error (HandlerError.validation VError.blockedCommand)) :=
  C2_no_spawn_on_validation_failure id "C:\\work" cfgDelScenario
    { shell := ShellKey.cmd, command := "del foo.txt", workingDir := some "C:\\work" }
    VError.blockedCommand rfl rfl

/-- C10 counterexample: under `cfgOpBlock` the command `del & x` has a
blocked parsed executable and exceeds the length limit, yet the error raised
is the blocked-operator error, not the blocked-command error, because the
operator check runs first. -/
theorem C10_counterexample :
    validateCommand cfgOpBlock ShellKey.cmd "del & x" =
      Except.error VError.blockedOperator ∧
    isCommandBlocked (parseCommand "del & x").1 cfgOpBlock.security.blockedCommands = true ∧
    cfgOpBlock.security.maxCommandLength < "del & x".length ∧
    validateCommand cfgOpBlock ShellKey.cmd "del & x" ≠
      Except.error VError.blockedCommand := by
  refine ⟨rfl, rfl, by decide, ?_⟩
  intro h
  have h0 : validateCommand cfgOpBlock ShellKey.cmd "del & x" =
      Except.error VError.blockedOperator := rfl
  rw [h0] at h
  injection h with h1
  cases h1

/-- C10 (amended): `validateCommand` checks operators, then the blocked
command, then blocked arguments, then length; so whenever the operator check
passes (protection off or no blocked operator present) and the parsed
executable is blocked, the error is the blocked-command error — and a length
error can only be raised when the operator, command and argument checks all
pass. -/
theorem C10_order_of_checks :
    (∀ (config : ServerConfig) (shell : ShellKey) (command : String),
        (config.security.enableInjectionProtection = false ∨
          (validateShellOperators command (config.shells.get shell)).isOk = true) →
        isCommandBlocked (parseCommand command).1 config.security.blockedCommands = true →
        validateCommand config shell command = Except.error VError.blockedCommand) ∧
    (∀ (config : ServerConfig) (shell : ShellKey) (command : String),
        validateCommand config shell command = Except.error VError.tooLong →
        isCommandBlocked (parseCommand command).1 config.security.blockedCommands = false ∧
        isArgumentBlocked (parseCommand command).2 config.security.blockedArguments = false ∧
        (config.security.enableInjectionProtection = false ∨
          (validateShellOperators command (config.shells.get shell)).isOk = true)) := by
  constructor
  · intro cfg shell command hop hcmd
    unfold validateCommand
    have hcond : ¬ (cfg.security.enableInjectionProtection = true ∧
        (validateShellOperators command (cfg.shells.get shell)).isOk = false) := by
      rintro ⟨hinj, hko⟩
      rcases hop with h | h
      · rw [hinj] at h; cases h
      · rw [h] at hko; cases hko
    rw [if_neg hcond]
    rcases hp : parseCommand command with ⟨ex, ar⟩
    rw [hp] at hcmd
    simp only [hcmd, if_true]
  · intro cfg shell command hval
    unfold validateCommand at hval
    by_cases hcond : cfg.security.enableInjectionProtection = true ∧
        (validateShellOperators command (cfg.shells.get shell)).isOk = false
    · rw [if_pos hcond] at hval
      injection hval with h1
      cases h1
    · rw [if_neg hcond] at hval
      rcases hp : parseCommand command with ⟨ex, ar⟩
      rw [hp] at hval
      by_cases hb : isCommandBlocked ex cfg.security.blockedCommands = true
      · simp only [hb, if_true] at hval
        injection hval with h1
        cases h1
      · simp only [Bool.not_eq_true] at hb
        simp only [hb, Bool.false_eq_true, if_false] at hval
        by_cases ha : isArgumentBlocked ar cfg.security.blockedArguments = true
        · simp only [ha, if_true] at hval
          injection hval with h1
          cases h1
        · simp only [Bool.not_eq_true] at ha
          simp only [ha, Bool.false_eq_true, if_false] at hval
          refine ⟨hb, ha, ?_⟩
          by_cases hinj : cfg.security.enableInjectionProtection = true
          · right
            by_contra hok
            simp only [Bool.not_eq_true] at hok
            exact hcond ⟨hinj, hok⟩
          · left
            simp only [Bool.not_eq_true] at hinj
            exact hinj

/-- C10 witness: with injection protection off, `del foo.txt` (blocked
executable, length over the limit of 3) yields the blocked-command error. -/
theorem C10_order_witness :
    validateCommand cfgNoInj ShellKey.cmd "del foo.txt" =
      Except.error VError.blockedCommand ∧
    cfgNoInj.security.maxCommandLength < "del foo.txt".length :=
  ⟨C10_order_of_checks.1 cfgNoInj ShellKey.cmd "del foo.txt" (Or.inl rfl) rfl,
   by decide⟩

/-- Helper: injectivity of the string constructor. -/
theorem strMk_inj (l l' : List Char) : (⟨l⟩ : String) = ⟨l'⟩ ↔ l = l' := by
  constructor
  · intro h; cases h; rfl
  · intro h; rw [h]

/-- A metacharacter-free pattern compiles to a list of literal elements. -/
theorem compileFrag_lit (l : List Char)
    (h : (l.all fun c => !(c = '.') && !regexMetaNonDot c) = true) :
    compileFrag l = some (l.map RElem.lit) := by
  induction l with
  | nil => rfl
  | cons c cs ih =>
    rw [List.all_cons, Bool.and_eq_true] at h
    obtain ⟨hc, hrest⟩ := h
    rw [Bool.and_eq_true, Bool.not_eq_true', Bool.not_eq_true'] at hc
    obtain ⟨hdot, hmeta⟩ := hc
    unfold compileFrag
    rw [if_neg (of_decide_eq_false hdot), if_neg (by simp [hmeta]), ih hrest]
    rfl

/-- Matching a list of literals is exactly case-folded equality of the whole
token with the whole pattern. -/
theorem reMatch_lit (l a : List Char) :
    reMatch (l.map RElem.lit) a = true ↔ lowerL a = lowerL l := by
  induction l generalizing a with
  | nil =>
    cases a with
    | nil => simp [reMatch, lowerL]
    | cons x xs => simp [reMatch, lowerL]
  | cons c cs ih =>
    cases a with
    | nil => simp [reMatch, lowerL]
    | cons x xs =>
      simp only [List.map_cons, reMatch, Bool.and_eq_true, decide_eq_true_eq, lowerL,
        List.cons.injEq]
      constructor
      · rintro ⟨h1, h2⟩
        exact ⟨h1.symm, by simpa [lowerL] using (ih xs).mp h2⟩
      · rintro ⟨h1, h2⟩
        exact ⟨h1.symm, (ih xs).mpr (by simpa [lowerL] using h2)⟩

/-- C6 counterexample: the configured pattern `a.b` contains the regex
metacharacter `.`, so the non-equal token `axb` is blocked — blocking is not
case-insensitive string equality for arbitrary patterns. -/
theorem C6_counterexample :
    isArgumentBlocked ["axb"] ["a.b"] = true ∧ lowerS "axb" ≠ lowerS "a.b" := by
  refine ⟨rfl, ?_⟩
  decide

/-- C6 (amended): each token is compared against each configured pattern as
an anchored case-insensitive regex; for patterns free of regex
metacharacters this is exactly full-token case-insensitive equality, so
`["-rf"]` vs `["-rf"]` is blocked and `["-rfoo"]` vs `["-rf"]` is not, while
a pattern containing a metacharacter such as `.` can match non-equal
tokens. -/
theorem C6_full_token_match :
    (∀ (args blockedArguments : List String),
        (∀ p ∈ blockedArguments, noRegexMeta p = true) →
        (isArgumentBlocked args blockedArguments = true ↔
          ∃ a ∈ args, ∃ p ∈ blockedArguments, lowerS a = lowerS p)) ∧
    isArgumentBlocked ["-rf"] ["-rf"] = true ∧
    isArgumentBlocked ["-rfoo"] ["-rf"] = false := by
  refine ⟨?_, rfl, rfl⟩
  intro args pats hpats
  unfold isArgumentBlocked
  simp only [List.any_eq_true]
  constructor
  · rintro ⟨a, hamem, p, hpmem, hm⟩
    refine ⟨a, hamem, p, hpmem, ?_⟩
    unfold jsAnchoredTestCI at hm
    rw [compileFrag_lit p.data (hpats p hpmem)] at hm
    have := (reMatch_lit p.data a.data).mp hm
    simp only [lowerS]
    exact (strMk_inj _ _).mpr this
  · rintro ⟨a, hamem, p, hpmem, he⟩
    refine ⟨a, hamem, p, hpmem, ?_⟩
    unfold jsAnchoredTestCI
    rw [compileFrag_lit p.data (hpats p hpmem)]
    refine (reMatch_lit p.data a.data).mpr ?_
    exact (strMk_inj _ _).mp (by simpa [lowerS] using he)

/-- C6 witness: the amended equivalence applied to the metacharacter-free
pattern `Xy` and the token `xY`. -/
theorem C6_match_witness : isArgumentBlocked ["xY"] ["Xy"] = true :=
  (C6_full_token_match.1 ["xY"] ["Xy"] (by decide)).mpr
    ⟨"xY", by simp, "Xy", by simp, by decide⟩

/-- Helper: taking one token past `acc` out of `acc ++ t :: rs` yields
`acc ++ [t]`. -/
theorem take_append_one (acc : List (List Char)) (t : List Char) (rs : List (List Char)) :
    (acc ++ t :: rs).take (acc.length + 1) = acc ++ [t] := by
  induction acc with
  | nil => simp
  | cons a as ih => simp [List.take_succ_cons, ih]

/-- Helper: a character of the first token occurs in the space-join. -/
theorem joinSp_head_contains (x : List Char) (xs : List (List Char)) (c : Char)
    (h : listContains x c = true) : listContains (joinSp (x :: xs)) c = true := by
  have hm : c ∈ x := List.elem_iff.mp h
  cases xs with
  | nil => exact h
  | cons y ys =>
    show (x ++ ' ' :: joinSp (y :: ys)).contains c = true
    exact List.elem_iff.mpr (List.mem_append_left _ hm)

/-- Helper: when the first token contains a backslash and no accumulated
prefix of the token list ends in a recognised executable suffix, the
re-assembly loop of `parseCommand` consumes every token and returns them
joined, with no arguments left. -/
theorem parseLoop_all (toks : List (List Char)) (t0 : List Char)
    (h0 : toks.head? = some t0) (hsep : listContains t0 '\\' = true)
    (hsuf : ∀ k < toks.length, hasExeSuffix (joinSp (toks.take (k + 1))) = false) :
    ∀ (rest acc : List (List Char)), toks = acc ++ rest →
      (acc = [] ∨ acc.head? = some t0) →
      parseLoop toks acc rest = (joinSp toks, []) := by
  intro rest
  induction rest with
  | nil =>
    intro acc heq _
    rw [List.append_nil] at heq
    subst heq
    show (joinSp toks, toks.drop toks.length) = (joinSp toks, [])
    rw [List.drop_length]
  | cons t rs ih =>
    intro acc heq hacc
    have hlen : acc.length < toks.length := by
      rw [heq]
      simp
    have htake : toks.take (acc.length + 1) = acc ++ [t] := by
      rw [heq, take_append_one]
    have hsufHere : hasExeSuffix (joinSp (acc ++ [t])) = false := by
      rw [← htake]
      exact hsuf acc.length hlen
    have hcontains : listContains (joinSp (acc ++ [t])) '\\' = true := by
      cases hacc with
      | inl h =>
        subst h
        have ht : t = t0 := by
          rw [heq] at h0
          simpa using h0
        subst ht
        exact hsep
      | inr h =>
        cases acc with
        | nil => simp at h
        | cons a as =>
          have ha : a = t0 := by simpa using h
          subst ha
          show listContains (joinSp (a :: (as ++ [t]))) '\\' = true
          exact joinSp_head_contains a (as ++ [t]) '\\' hsep
    show parseLoop toks acc (t :: rs) = (joinSp toks, [])
    unfold parseLoop
    simp only []
    rw [if_neg (by
      rintro (hs | ⟨hnc, -⟩)
      · rw [hsufHere] at hs; cases hs
      · exact hnc hcontains)]
    rw [if_pos hcontains]
    refine ih (acc ++ [t]) (by rw [heq]; simp) (Or.inr ?_)
    cases hacc with
    | inl h =>
      subst h
      have ht : t = t0 := by
        rw [heq] at h0
        simpa using h0
      simp [ht]
    | inr h =>
      cases acc with
      | nil => simp at h
      | cons a as => simpa using h

/-- C5 (amended): when the first whitespace-delimited token contains a
backslash and no accumulation of consecutive tokens ends in a recognised
executable suffix, `parseCommand` returns ALL tokens joined by single spaces
as the executable and an empty argument list (the loop keeps accumulating as
long as the potential command contains a backslash); the claimed
first-token/rest split occurs only when the first token's separator is a
forward slash. -/
theorem C5_backslash_join (s : String) (t0 : List Char) (rest : List (List Char))
    (htok : tokenizeCmd (jsTrim s.data) = t0 :: rest)
    (hsep : listContains t0 '\\' = true)
    (hsuf : ∀ k < (t0 :: rest).length,
        hasExeSuffix (joinSp ((t0 :: rest).take (k + 1))) = false) :
    parseCommand s = (⟨joinSp (t0 :: rest)⟩, []) := by
  have htrim : ¬ (jsTrim s.data = []) := by
    intro h
    rw [h] at htok
    exact List.noConfusion (htok : ([] : List (List Char)) = t0 :: rest)
  unfold parseCommand
  rw [if_neg htrim, htok]
  show (if ¬ listContains t0 ' ' = true ∧ ¬ listContains t0 '\\' = true then
      ((⟨t0⟩ : String), rest.map (fun l => (⟨l⟩ : String)))
    else
      match parseLoop (t0 :: rest) [] (t0 :: rest) with
      | (cmd, args) => ((⟨cmd⟩ : String), args.map (fun l => (⟨l⟩ : String)))) =
    ((⟨joinSp (t0 :: rest)⟩ : String), ([] : List String))
  rw [if_neg (by rintro ⟨-, h2⟩; exact h2 hsep)]
  rw [parseLoop_all (t0 :: rest) t0 rfl hsep hsuf (t0 :: rest) [] rfl (Or.inl rfl)]
  rfl

/-- C5 counterexample: `C:\foo bar` has a backslash-bearing first token and
no accumulation ends in `.exe`/`.cmd`/`.bat`, yet `parseCommand` returns the
whole string as the executable with no arguments, not the first token plus
`["bar"]`. -/
theorem C5_counterexample :
    parseCommand "C:\\foo bar" = ("C:\\foo bar", []) ∧
    tokenizeCmd (jsTrim "C:\\foo bar".data) = ["C:\\foo".data, "bar".data] ∧
    listContains "C:\\foo".data '\\' = true ∧
    (∀ k < 2, hasExeSuffix (joinSp (["C:\\foo".data, "bar".data].take (k + 1))) = false) ∧
    parseCommand "C:\\foo bar" ≠ ("C:\\foo", ["bar"]) := by
  refine ⟨rfl, rfl, rfl, by decide, by decide⟩

/-- C5 witness: the amended statement evaluated at `C:\foo bar`. -/
theorem C5_witness :
    parseCommand "C:\\foo bar" = (⟨joinSp ["C:\\foo".data, "bar".data]⟩, []) :=
  C5_backslash_join "C:\\foo bar" "C:\\foo".data ["bar".data] rfl rfl (by decide)

/-- `Char.ofNat` round-trips on valid code points. -/
theorem charOfNat_toNat (n : Nat) (h : Nat.isValidChar n) :
    (Char.ofNat n).toNat = n := by
  unfold Char.ofNat
  rw [dif_pos h]
  unfold Char.ofNatAux Char.toNat
  have hlt : n < 2 ^ 32 := by
    rcases h with h | ⟨-, h⟩ <;> omega
  simp [UInt32.toNat, UInt32.ofNat', BitVec.toNat_ofNat, Nat.mod_eq_of_lt hlt]

/-- A path separator is not an ASCII letter. -/
theorem letter_not_sep (c : Char) (h : isAsciiLetter c = true) :
    isPathSep c = false := by
  by_contra hs
  rw [Bool.not_eq_false] at hs
  simp only [isPathSep, Bool.or_eq_true, decide_eq_true_eq] at hs
  rcases hs with rfl | rfl <;> simp [isAsciiLetter] at h

/-- Upper-casing an ASCII letter never yields a path separator. -/
theorem upperChar_not_sep (c : Char) (h : isAsciiLetter c = true) :
    isPathSep (upperChar c) = false := by
  unfold upperChar
  by_cases hl : ('a' ≤ c && c ≤ 'z') = true
  · rw [if_pos hl]
    rw [Bool.and_eq_true, decide_eq_true_eq, decide_eq_true_eq] at hl
    have ha : 97 ≤ c.toNat := hl.1
    have hz : c.toNat ≤ 122 := hl.2
    have hv : Nat.isValidChar (c.toNat - 32) := Or.inl (by omega)
    have ht : (Char.ofNat (c.toNat - 32)).toNat = c.toNat - 32 := charOfNat_toNat _ hv
    simp only [isPathSep, Bool.or_eq_false_iff, decide_eq_false_iff_not]
    constructor
    · intro he
      have h92 : ('\\' : Char).toNat = 92 := by decide
      rw [he, h92] at ht
      omega
    · intro he
      have h47 : ('/' : Char).toNat = 47 := by decide
      rw [he, h47] at ht
      omega
  · rw [if_neg hl]
    exact letter_not_sep c h

/-- Every chunk produced by `splitSegs` is separator-free. -/
theorem splitSegs_sepFree (p : List Char) : ∀ s ∈ splitSegs p, sepFreeSeg s := by
  induction p with
  | nil =>
    intro s hs
    simp only [splitSegs, List.mem_singleton] at hs
    subst hs
    intro c hc
    cases hc
  | cons c cs ih =>
    intro s hs
    unfold splitSegs at hs
    by_cases hsep : isPathSep c = true
    · rw [if_pos hsep] at hs
      rcases List.mem_cons.mp hs with rfl | hmem
      · intro x hx; cases hx
      · exact ih s hmem
    · rw [if_neg hsep] at hs
      rcases hsplit : splitSegs cs with ⟨⟩ | ⟨t, ts⟩
      · rw [hsplit] at hs
        rcases List.mem_cons.mp hs with rfl | hmem
        · intro x hx
          rcases List.mem_cons.mp hx with rfl | hx2
          · exact Bool.not_eq_true _ ▸ hsep
          · cases hx2
        · cases hmem
      · rw [hsplit] at hs
        rcases List.mem_cons.mp hs with rfl | hmem
        · intro x hx
          rcases List.mem_cons.mp hx with rfl | hx2
          · exact Bool.not_eq_true _ ▸ hsep
          · exact ih t (hsplit ▸ List.mem_cons_self t ts) x hx2
        · exact ih s (hsplit ▸ List.mem_cons_of_mem t hmem)

/-- Splitting a separator-free chunk glued to a separator and a remainder
peels off exactly that chunk. -/
theorem splitSegs_cons_sep (seg rest : List Char) (h : sepFreeSeg seg) :
    splitSegs (seg ++ '\\' :: rest) = seg :: splitSegs rest := by
  induction seg with
  | nil =>
    show splitSegs ('\\' :: rest) = [] :: splitSegs rest
    conv_lhs => rw [splitSegs]
    rw [if_pos (by rfl)]
  | cons c cs ih =>
    have hc : isPathSep c = false := h c (List.mem_cons_self c cs)
    have hcs : sepFreeSeg cs := fun x hx => h x (List.mem_cons_of_mem c hx)
    show splitSegs (c :: (cs ++ '\\' :: rest)) = (c :: cs) :: splitSegs rest
    conv_lhs => rw [splitSegs]
    rw [if_neg (by simp [hc]), ih hcs]

/-- Splitting a separator-free chunk returns the chunk alone. -/
theorem splitSegs_sepFree_id (seg : List Char) (h : sepFreeSeg seg) :
    splitSegs seg = [seg] := by
  induction seg with
  | nil => rfl
  | cons c cs ih =>
    have hc : isPathSep c = false := h c (List.mem_cons_self c cs)
    have hcs : sepFreeSeg cs := fun x hx => h x (List.mem_cons_of_mem c hx)
    show splitSegs (c :: cs) = [c :: cs]
    conv_lhs => rw [splitSegs]
    rw [if_neg (by simp [hc]), ih hcs]

/-- Splitting a join of separator-free segments recovers the segments. -/
theorem splitSegs_join (segs : List (List Char)) (hne : segs ≠ [])
    (hsf : ∀ s ∈ segs, sepFreeSeg s) :
    splitSegs (joinSegs segs) = segs := by
  induction segs with
  | nil => cases hne rfl
  | cons s ss ih =>
    cases ss with
    | nil =>
      show splitSegs (joinSegs [s]) = [s]
      exact splitSegs_sepFree_id s (hsf s (List.mem_cons_self s []))
    | cons t ts =>
      show splitSegs (s ++ '\\' :: joinSegs (t :: ts)) = s :: t :: ts
      rw [splitSegs_cons_sep s _ (hsf s (List.mem_cons_self s (t :: ts)))]
      rw [ih (by simp) (fun x hx => hsf x (List.mem_cons_of_mem s hx))]

/-- Splitting a join of separator-free segments with a trailing separator
recovers the segments plus one empty chunk. -/
theorem splitSegs_join_sep (segs : List (List Char)) (hne : segs ≠ [])
    (hsf : ∀ s ∈ segs, sepFreeSeg s) :
    splitSegs (joinSegs segs ++ ['\\']) = segs ++ [[]] := by
  induction segs with
  | nil => cases hne rfl
  | cons s ss ih =>
    cases ss with
    | nil =>
      show splitSegs (s ++ '\\' :: []) = [s, []]
      rw [splitSegs_cons_sep s [] (hsf s (List.mem_cons_self s []))]
      rfl
    | cons t ts =>
      show splitSegs ((s ++ '\\' :: joinSegs (t :: ts)) ++ ['\\']) = (s :: t :: ts) ++ [[]]
      rw [List.append_assoc, List.cons_append]
      rw [splitSegs_cons_sep s _ (hsf s (List.mem_cons_self s (t :: ts)))]
      rw [ih (by simp) (fun x hx => hsf x (List.mem_cons_of_mem s hx))]
      rfl

/-- `segStep` appends a normal segment. -/
theorem segStep_normal (a : Bool) (acc : List (List Char)) (s : List Char)
    (h : isNormalSeg s) : segStep a acc s = acc ++ [s] := by
  obtain ⟨h1, h2, h3⟩ := h
  unfold segStep
  rw [if_neg (by rintro (h | h) <;> [exact h1 h; exact h2 h]),
    if_neg (show ¬ s = ['.', '.'] from h3)]

/-- Folding `segStep` over normal segments appends them all. -/
theorem foldl_normals (a : Bool) (rest : List (List Char))
    (h : ∀ s ∈ rest, isNormalSeg s) :
    ∀ acc, List.foldl (segStep a) acc rest = acc ++ rest := by
  induction rest with
  | nil => intro acc; simp
  | cons s ss ih =>
    intro acc
    rw [List.foldl_cons, segStep_normal a acc s (h s (List.mem_cons_self s ss))]
    rw [ih (fun x hx => h x (List.mem_cons_of_mem s hx)) (acc ++ [s])]
    simp

/-- Last entry of a non-empty replicate. -/
theorem getLast_replicate (j : Nat) (x : List Char) :
    (List.replicate (j + 1) x).getLast? = some x := by
  induction j with
  | zero => rfl
  | succ n ih =>
    rw [List.replicate_succ, List.replicate_succ, List.getLast?_cons_cons,
      ← List.replicate_succ]
    exact ih

/-- `segStep` on `..` extends a pure `..` run when above-root segments are
allowed. -/
theorem segStep_dd_reps (j : Nat) :
    segStep true (List.replicate j dd) dd = List.replicate (j + 1) dd := by
  cases j with
  | zero => rfl
  | succ n =>
    unfold segStep
    rw [if_neg (show ¬ (dd = [] ∨ dd = ['.']) by decide)]
    rw [if_pos (show dd = ['.', '.'] by rfl)]
    rw [if_neg (by
      rintro ⟨-, h2⟩
      exact h2 (getLast_replicate n dd))]
    rw [if_pos rfl]
    show List.replicate (n + 1) dd ++ [dd] = List.replicate (n + 1 + 1) dd
    rw [← List.replicate_succ']

/-- Folding `segStep` over a run of `..` segments extends a `..`
accumulator. -/
theorem foldl_reps (k : Nat) :
    ∀ j, List.foldl (segStep true) (List.replicate j dd) (List.replicate k dd) =
      List.replicate (j + k) dd := by
  induction k with
  | zero => intro j; rfl
  | succ n ih =>
    intro j
    rw [List.replicate_succ, List.foldl_cons, segStep_dd_reps j, ih (j + 1)]
    congr 1
    omega

/-- `processSegs` is the identity on clean segment lists. -/
theorem processSegs_clean_id (a : Bool) (segs : List (List Char))
    (h : CleanSegs a segs) : processSegs a segs = segs := by
  obtain ⟨k, rest, rfl, hk, hrest⟩ := h
  unfold processSegs
  rw [List.foldl_append]
  cases k with
  | zero =>
    rw [List.replicate_zero, List.nil_append]
    show List.foldl (segStep a) [] rest = rest
    rw [foldl_normals a rest hrest []]
    rfl
  | succ n =>
    have ha : a = true := hk (by omega)
    subst ha
    have h0 : List.foldl (segStep true) [] (List.replicate (n + 1) dd) =
        List.replicate (n + 1) dd := by
      have := foldl_reps (n + 1) 0
      rw [List.replicate_zero] at this
      simpa using this
    rw [h0, foldl_normals true rest hrest]

/-- The `..` segment is separator-free. -/
theorem dd_sepFree : sepFreeSeg dd := by
  intro c hc
  rcases List.mem_cons.mp hc with rfl | hc2
  · rfl
  · rcases List.mem_cons.mp hc2 with rfl | hc3
    · rfl
    · cases hc3

/-- One `segStep` preserves cleanliness and separator-freeness of the
accumulator. -/
theorem segStep_preserves (a : Bool) (acc : List (List Char)) (s : List Char)
    (hacc : CleanSegs a acc) (haccsf : ∀ x ∈ acc, sepFreeSeg x)
    (hs : sepFreeSeg s) :
    CleanSegs a (segStep a acc s) ∧ ∀ x ∈ segStep a acc s, sepFreeSeg x := by
  unfold segStep
  by_cases h1 : s = [] ∨ s = ['.']
  · rw [if_pos h1]; exact ⟨hacc, haccsf⟩
  · rw [if_neg h1]
    by_cases h2 : s = ['.', '.']
    · rw [if_pos h2]
      by_cases h3 : acc ≠ [] ∧ acc.getLast? ≠ some ['.', '.']
      · rw [if_pos h3]
        obtain ⟨k, rest, rfl, hk, hrest⟩ := hacc
        have hrestne : rest ≠ [] := by
          intro hre
          subst hre
          rw [List.append_nil] at h3
          obtain ⟨hne, hlast⟩ := h3
          cases k with
          | zero => exact hne rfl
          | succ n => exact hlast (getLast_replicate n dd)
        rw [List.dropLast_append_of_ne_nil _ hrestne]
        refine ⟨⟨k, rest.dropLast, rfl, hk,
          fun x hx => hrest x (List.dropLast_subset _ hx)⟩, ?_⟩
        intro x hx
        rcases List.mem_append.mp hx with hx | hx
        · exact haccsf x (List.mem_append.mpr (Or.inl hx))
        · exact haccsf x (List.mem_append.mpr (Or.inr (List.dropLast_subset _ hx)))
      · rw [if_neg h3]
        by_cases ha : a = true
        · rw [if_pos ha]
          obtain ⟨k, rest, rfl, hk, hrest⟩ := hacc
          have hrest0 : rest = [] := by
            by_contra hne
            rcases not_and_or.mp h3 with hc | hc
            · rw [not_ne_iff, List.append_eq_nil] at hc
              exact hne hc.2
            · rw [not_ne_iff, List.getLast?_append_of_ne_nil _ hne] at hc
              have hmem := List.mem_of_mem_getLast? hc
              exact (hrest _ hmem).2.2 rfl
          subst hrest0
          rw [List.append_nil]
          refine ⟨⟨k + 1, [], ?_, fun _ => ha, by intro x hx; cases hx⟩, ?_⟩
          · rw [List.append_nil]
            exact (List.replicate_succ' (k) dd).symm
          · intro x hx
            rcases List.mem_append.mp hx with hx | hx
            · exact haccsf x (List.mem_append.mpr (Or.inl hx))
            · rw [List.mem_singleton] at hx
              subst hx
              exact dd_sepFree
        · rw [if_neg ha]; exact ⟨hacc, haccsf⟩
    · rw [if_neg h2]
      obtain ⟨k, rest, rfl, hk, hrest⟩ := hacc
      have hnorm : isNormalSeg s :=
        ⟨fun h => h1 (Or.inl h), fun h => h1 (Or.inr h), h2⟩
      refine ⟨⟨k, rest ++ [s], by rw [List.append_assoc], hk, ?_⟩, ?_⟩
      · intro x hx
        rcases List.mem_append.mp hx with hx | hx
        · exact hrest x hx
        · rw [List.mem_singleton] at hx; subst hx; exact hnorm
      · intro x hx
        rcases List.mem_append.mp hx with hx | hx
        · exact haccsf x hx
        · rw [List.mem_singleton] at hx; subst hx; exact hs

/-- Folding `segStep` over separator-free segments preserves the clean
invariant. -/
theorem foldl_clean_inv (a : Bool) (segs : List (List Char))
    (hsf : ∀ s ∈ segs, sepFreeSeg s) :
    ∀ acc, CleanSegs a acc → (∀ x ∈ acc, sepFreeSeg x) →
      CleanSegs a (List.foldl (segStep a) acc segs) ∧
        ∀ x ∈ List.foldl (segStep a) acc segs, sepFreeSeg x := by
  induction segs with
  | nil => intro acc h1 h2; exact ⟨h1, h2⟩
  | cons s ss ih =>
    intro acc h1 h2
    rw [List.foldl_cons]
    obtain ⟨hc, hsfstep⟩ :=
      segStep_preserves a acc s h1 h2 (hsf s (List.mem_cons_self s ss))
    exact ih (fun x hx => hsf x (List.mem_cons_of_mem s hx)) _ hc hsfstep

/-- The output of `processSegs` on separator-free segments is clean and
separator-free. -/
theorem processSegs_clean (a : Bool) (segs : List (List Char))
    (hsf : ∀ s ∈ segs, sepFreeSeg s) :
    CleanSegs a (processSegs a segs) ∧
      ∀ x ∈ processSegs a segs, sepFreeSeg x := by
  exact foldl_clean_inv a segs hsf []
    ⟨0, [], rfl, fun h => absurd rfl h, by intro x hx; cases hx⟩
    (by intro x hx; cases hx)

/-- Re-normalizing a clean join (with or without a trailing separator)
returns the join unchanged. -/
theorem normalizeString_join (a : Bool) (cl : List (List Char))
    (hc : CleanSegs a cl) (hsf : ∀ s ∈ cl, sepFreeSeg s) :
    normalizeString (joinSegs cl) a = joinSegs cl ∧
      normalizeString (joinSegs cl ++ ['\\']) a = joinSegs cl := by
  cases cl with
  | nil => exact ⟨rfl, rfl⟩
  | cons c0 cs =>
    have hne : c0 :: cs ≠ [] := by simp
    constructor
    · unfold normalizeString
      rw [splitSegs_join _ hne hsf, processSegs_clean_id a _ hc]
    · unfold normalizeString
      rw [splitSegs_join_sep _ hne hsf]
      unfold processSegs
      rw [List.foldl_append]
      show joinSegs (segStep a (List.foldl (segStep a) [] (c0 :: cs)) []) = _
      rw [show List.foldl (segStep a) [] (c0 :: cs) = processSegs a (c0 :: cs) from rfl]
      rw [processSegs_clean_id a _ hc]
      unfold segStep
      rw [if_pos (Or.inl rfl)]

/-- Every segment of a clean list is non-empty. -/
theorem clean_ne_nil (a : Bool) (cl : List (List Char)) (hc : CleanSegs a cl) :
    ∀ s ∈ cl, s ≠ [] := by
  obtain ⟨k, rest, rfl, -, hrest⟩ := hc
  intro s hs
  rcases List.mem_append.mp hs with hs | hs
  · rw [List.eq_of_mem_replicate hs]
    intro h; cases h
  · exact (hrest s hs).1

/-- A join of non-empty segments is non-empty. -/
theorem joinSegs_ne_nil (cl : List (List Char)) (hne : cl ≠ [])
    (h : ∀ s ∈ cl, s ≠ []) : joinSegs cl ≠ [] := by
  cases cl with
  | nil => cases hne rfl
  | cons s ss =>
    cases ss with
    | nil => exact h s (List.mem_cons_self s [])
    | cons t ts =>
      show s ++ '\\' :: joinSegs (t :: ts) ≠ []
      simp

/-- The head of a join is the head of the first segment. -/
theorem joinSegs_cons_head (c : Char) (cs : List Char) (ss : List (List Char)) :
    ∃ t, joinSegs ((c :: cs) :: ss) = c :: t := by
  cases ss with
  | nil => exact ⟨cs, rfl⟩
  | cons t ts => exact ⟨cs ++ '\\' :: joinSegs (t :: ts), rfl⟩

/-- Dropping the head keeps `getLast?` when the tail is non-empty. -/
theorem getLast?_cons_ne (a : Char) (l : List Char) (h : l ≠ []) :
    (a :: l).getLast? = l.getLast? := by
  cases l with
  | nil => cases h rfl
  | cons b bs => rw [List.getLast?_cons_cons]

/-- The last character of a join of separator-free segments is not a
separator. -/
theorem joinSegs_getLast_nonsep (cl : List (List Char)) (hne : cl ≠ [])
    (hnn : ∀ s ∈ cl, s ≠ []) (hsf : ∀ s ∈ cl, sepFreeSeg s) :
    ∀ x, (joinSegs cl).getLast? = some x → isPathSep x = false := by
  induction cl with
  | nil => cases hne rfl
  | cons s ss ih =>
    cases ss with
    | nil =>
      intro x hx
      exact hsf s (List.mem_cons_self s []) x (List.mem_of_mem_getLast? hx)
    | cons t ts =>
      intro x hx
      have hjoin : joinSegs (s :: t :: ts) = s ++ '\\' :: joinSegs (t :: ts) := rfl
      rw [hjoin, List.getLast?_append_of_ne_nil _ (by simp)] at hx
      have hnemp : joinSegs (t :: ts) ≠ [] :=
        joinSegs_ne_nil _ (by simp) (fun u hu => hnn u (List.mem_cons_of_mem s hu))
      rw [getLast?_cons_ne _ _ hnemp] at hx
      exact ih (by simp) (fun u hu => hnn u (List.mem_cons_of_mem s hu))
        (fun u hu => hsf u (List.mem_cons_of_mem s hu)) x hx

/-- Every character of a join is a segment character or the separator. -/
theorem joinSegs_chars (cl : List (List Char)) :
    ∀ x ∈ joinSegs cl, (∃ s ∈ cl, x ∈ s) ∨ x = '\\' := by
  induction cl with
  | nil => intro x hx; cases hx
  | cons s ss ih =>
    cases ss with
    | nil =>
      intro x hx
      exact Or.inl ⟨s, List.mem_cons_self s [], hx⟩
    | cons t ts =>
      intro x hx
      have hjoin : joinSegs (s :: t :: ts) = s ++ '\\' :: joinSegs (t :: ts) := rfl
      rw [hjoin] at hx
      rcases List.mem_append.mp hx with hx | hx
      · exact Or.inl ⟨s, List.mem_cons_self s (t :: ts), hx⟩
      · rcases List.mem_cons.mp hx with rfl | hx2
        · exact Or.inr rfl
        · rcases ih x hx2 with ⟨u, hu, hxu⟩ | h
          · exact Or.inl ⟨u, List.mem_cons_of_mem s hu, hxu⟩
          · exact Or.inr h

/-- Branch equation: drive-absolute inputs. -/
theorem wN_driveAbs_eq (l : Char) (hl : isAsciiLetter l = true) (t : List Char) :
    win32Normalize (l :: ':' :: '\\' :: t) =
      assembleNorm (some [l, ':']) true
        (isPathSep ((l :: ':' :: '\\' :: t).getLast (by simp))) t := by
  unfold win32Normalize
  dsimp only
  rw [if_neg (by simp [letter_not_sep l hl]), if_pos ⟨hl, rfl⟩]
  rw [if_pos (show isPathSep '\\' = true from rfl)]

/-- Branch equation: drive-relative inputs. -/
theorem wN_driveRel_eq (l : Char) (hl : isAsciiLetter l = true) (c3 : Char)
    (r2 : List Char) (hc3 : isPathSep c3 = false) :
    win32Normalize (l :: ':' :: c3 :: r2) =
      assembleNorm (some [l, ':']) false
        (isPathSep ((l :: ':' :: c3 :: r2).getLast (by simp))) (c3 :: r2) := by
  unfold win32Normalize
  dsimp only
  rw [if_neg (by simp [letter_not_sep l hl]), if_pos ⟨hl, rfl⟩]
  rw [if_neg (by simp [hc3])]

/-- Branch equation: a bare drive specifier gains a dot. -/
theorem wN_driveNil_eq (l : Char) (hl : isAsciiLetter l = true) :
    win32Normalize [l, ':'] = [l, ':', '.'] := by
  unfold win32Normalize
  dsimp only
  rw [if_neg (by simp [letter_not_sep l hl]), if_pos ⟨hl, rfl⟩]
  rfl

/-- Branch equation: inputs with no separator lead and no drive prefix. -/
theorem wN_caseD_eq (c1 c2 : Char) (r : List Char) (h1 : isPathSep c1 = false)
    (h2 : ¬ (isAsciiLetter c1 = true ∧ c2 = ':')) :
    win32Normalize (c1 :: c2 :: r) =
      assembleNorm none false
        (isPathSep ((c1 :: c2 :: r).getLast (by simp))) (c1 :: c2 :: r) := by
  unfold win32Normalize
  dsimp only
  rw [if_neg (by simp [h1]), if_neg h2]

/-- Branch equation: single non-separator character. -/
theorem wN_single_eq (c : Char) (h : isPathSep c = false) :
    win32Normalize [c] = [c] := by
  unfold win32Normalize
  dsimp only
  rw [if_neg (by simp [h])]

/-- Identify the total `getLast` with a computed `getLast?`. -/
theorem getLast_spec (l : List Char) (h : l ≠ []) (x : Char)
    (hx : l.getLast? = some x) : l.getLast h = x := by
  rw [List.getLast?_eq_getLast l h] at hx
  exact Option.some.inj hx

/-- `getLast?` of three cons cells over a non-empty tail. -/
theorem getLast?_cons3 (a b c : Char) (t : List Char) (ht : t ≠ []) :
    (a :: b :: c :: t).getLast? = t.getLast? := by
  rw [getLast?_cons_ne a _ (by simp), getLast?_cons_ne b _ (by simp),
    getLast?_cons_ne c _ ht]

/-- Evaluation of `assembleNorm` for an absolute device root with empty
resolved tail. -/
theorem assembleNorm_someAbs_nil (d : List Char) (ls : Bool) :
    assembleNorm (some d) true ls [] = d ++ ['\\'] := by
  simp [assembleNorm]

/-- Evaluation of `assembleNorm` for an absolute device root over a clean
join, no trailing separator. -/
theorem assembleNorm_someAbs_join (d : List Char) (cl : List (List Char))
    (hc : CleanSegs false cl) (hsf : ∀ s ∈ cl, sepFreeSeg s) (hne : cl ≠ []) :
    assembleNorm (some d) true false (joinSegs cl) = d ++ '\\' :: joinSegs cl := by
  have hjne : joinSegs cl ≠ [] := joinSegs_ne_nil cl hne (clean_ne_nil false cl hc)
  have hns := (normalizeString_join false cl hc hsf).1
  simp [assembleNorm, hjne, hns]

/-- Evaluation of `assembleNorm` for an absolute device root over a clean
join with a trailing separator. -/
theorem assembleNorm_someAbs_joinSep (d : List Char) (cl : List (List Char))
    (hc : CleanSegs false cl) (hsf : ∀ s ∈ cl, sepFreeSeg s) (hne : cl ≠ []) :
    assembleNorm (some d) true true (joinSegs cl ++ ['\\']) =
      d ++ '\\' :: (joinSegs cl ++ ['\\']) := by
  have hjne : joinSegs cl ≠ [] := joinSegs_ne_nil cl hne (clean_ne_nil false cl hc)
  have hns := (normalizeString_join false cl hc hsf).2
  simp [assembleNorm, hjne, hns]

/-- Evaluation of `assembleNorm` for a rootless relative clean join, no
trailing separator. -/
theorem assembleNorm_noneRel_join (cl : List (List Char))
    (hc : CleanSegs true cl) (hsf : ∀ s ∈ cl, sepFreeSeg s) (hne : cl ≠ []) :
    assembleNorm none false false (joinSegs cl) = joinSegs cl := by
  have hjne : joinSegs cl ≠ [] := joinSegs_ne_nil cl hne (clean_ne_nil true cl hc)
  have hns := (normalizeString_join true cl hc hsf).1
  simp [assembleNorm, hjne, hns]

/-- Evaluation of `assembleNorm` for a rootless relative clean join with a
trailing separator. -/
theorem assembleNorm_noneRel_joinSep (cl : List (List Char))
    (hc : CleanSegs true cl) (hsf : ∀ s ∈ cl, sepFreeSeg s) (hne : cl ≠ []) :
    assembleNorm none false true (joinSegs cl ++ ['\\']) =
      joinSegs cl ++ ['\\'] := by
  have hjne : joinSegs cl ≠ [] := joinSegs_ne_nil cl hne (clean_ne_nil true cl hc)
  have hns := (normalizeString_join true cl hc hsf).2
  simp [assembleNorm, hjne, hns]

/-- A clean list headed by a non-`..` segment consists of normal segments
only. -/
theorem clean_head_normal (a : Bool) (h0 : List Char) (cl' : List (List Char))
    (hc : CleanSegs a (h0 :: cl')) (hnd : h0 ≠ dd) :
    ∀ s ∈ h0 :: cl', isNormalSeg s := by
  obtain ⟨k, rest, heq, hk, hrest⟩ := hc
  cases k with
  | zero =>
    rw [List.replicate_zero, List.nil_append] at heq
    rw [heq]
    exact hrest
  | succ n =>
    rw [List.replicate_succ, List.cons_append] at heq
    exact absurd (List.head_eq_of_cons_eq heq) hnd

/-- Normal segments form a clean list for either flag. -/
theorem clean_of_normals (a : Bool) (cl : List (List Char))
    (h : ∀ s ∈ cl, isNormalSeg s) : CleanSegs a cl :=
  ⟨0, cl, rfl, fun hk => absurd rfl hk, h⟩

/-- A join starting with a non-empty segment, spelled out. -/
theorem joinSegs_cons_eq (c : Char) (cs : List Char) (cl' : List (List Char)) :
    joinSegs ((c :: cs) :: cl') = c :: joinTail cs cl' := by
  cases cl' with
  | nil => rfl
  | cons t1 ts => rfl

/-- Any normalized good shape is a fixed point of `win32Normalize`. -/
theorem fixGood (r : List Char) (hg : GoodShape r) : win32Normalize r = r := by
  cases hg with
  | dot => rfl
  | dotSep => rfl
  | single c hc => exact wN_single_eq c hc
  | driveAbsNil l hl =>
    rw [wN_driveAbs_eq l hl [], assembleNorm_someAbs_nil]
    rfl
  | driveAbs l cl t hl hc hsf hne ht =>
    have hnn := clean_ne_nil false cl hc
    have hjne : joinSegs cl ≠ [] := joinSegs_ne_nil cl hne hnn
    rcases ht with rfl | rfl
    · rw [wN_driveAbs_eq l hl _]
      have hx : (joinSegs cl).getLast? = some ((joinSegs cl).getLast hjne) :=
        List.getLast?_eq_getLast _ _
      have hfull : (l :: ':' :: '\\' :: joinSegs cl).getLast? =
          some ((joinSegs cl).getLast hjne) := by
        rw [getLast?_cons3 _ _ _ _ hjne]
        exact hx
      rw [getLast_spec _ (by simp) _ hfull,
        joinSegs_getLast_nonsep cl hne hnn hsf _ hx,
        assembleNorm_someAbs_join [l, ':'] cl hc hsf hne]
      rfl
    · rw [wN_driveAbs_eq l hl _]
      have hfull : (l :: ':' :: '\\' :: (joinSegs cl ++ ['\\'])).getLast? =
          some '\\' := by
        rw [getLast?_cons3 _ _ _ _ (by simp), List.getLast?_append_of_ne_nil _ (by simp)]
        rfl
      rw [getLast_spec _ (by simp) _ hfull]
      rw [show isPathSep '\\' = true from rfl]
      rw [assembleNorm_someAbs_joinSep [l, ':'] cl hc hsf hne]
      rfl
  | relJoin cl t hc hsf hne hhead ht =>
    have hnn := clean_ne_nil true cl hc
    have hjne : joinSegs cl ≠ [] := joinSegs_ne_nil cl hne hnn
    obtain ⟨h0, cl', rfl⟩ : ∃ h0 cl', cl = h0 :: cl' := by
      cases cl with
      | nil => cases hne rfl
      | cons x xs => exact ⟨x, xs, rfl⟩
    obtain ⟨c, cs, rfl⟩ : ∃ c cs, h0 = c :: cs := by
      cases h0 with
      | nil => exact absurd rfl (hnn [] (List.mem_cons_self _ _))
      | cons x xs => exact ⟨x, xs, rfl⟩
    have hcsep : isPathSep c = false :=
      hsf _ (List.mem_cons_self _ _) c (List.mem_cons_self _ _)
    have hjoin := joinSegs_cons_eq c cs cl'
    have h2gen : ∀ (d : Char) (rest : List Char), joinTail cs cl' = d :: rest →
        ¬ (isAsciiLetter c = true ∧ d = ':') := by
      intro d rest hdr
      rintro ⟨hlet, rfl⟩
      cases cs with
      | nil =>
        cases cl' with
        | nil => cases hdr
        | cons t1 ts =>
          have h01 : ('\\' :: joinSegs (t1 :: ts) : List Char) = ':' :: rest := hdr
          exact absurd (List.head_eq_of_cons_eq h01) (by decide)
      | cons e cs2 =>
        have he : e = ':' := by
          cases cl' with
          | nil => exact List.head_eq_of_cons_eq hdr
          | cons t1 ts => exact List.head_eq_of_cons_eq hdr
        subst he
        have hfalse := hhead c cs2 rfl
        rw [hlet] at hfalse
        cases hfalse
    rcases ht with rfl | rfl
    · rw [hjoin]
      rcases htail : joinTail cs cl' with ⟨⟩ | ⟨d, rest⟩
      · exact wN_single_eq c hcsep
      · rw [wN_caseD_eq c d rest hcsep (h2gen d rest htail)]
        have hback : c :: d :: rest = joinSegs ((c :: cs) :: cl') := by
          rw [hjoin, htail]
        have hx : (joinSegs ((c :: cs) :: cl')).getLast? =
            some ((joinSegs ((c :: cs) :: cl')).getLast hjne) :=
          List.getLast?_eq_getLast _ _
        have hq : (c :: d :: rest).getLast? =
            some ((joinSegs ((c :: cs) :: cl')).getLast hjne) := by
          rw [hback]
          exact hx
        rw [getLast_spec _ (by simp) _ hq,
          joinSegs_getLast_nonsep _ (by simp) hnn hsf _ hx, hback]
        exact assembleNorm_noneRel_join _ hc hsf (by simp)
    · rw [hjoin, List.cons_append]
      rcases htail : joinTail cs cl' with ⟨⟩ | ⟨d, rest⟩
      · show win32Normalize (c :: '\\' :: []) = c :: '\\' :: []
        rw [wN_caseD_eq c '\\' [] hcsep (by rintro ⟨-, h⟩; exact absurd h (by decide))]
        rw [show isPathSep ((c :: '\\' :: ([] : List Char)).getLast (by simp)) = true
          from rfl]
        have hback : (c :: '\\' :: ([] : List Char)) =
            joinSegs ((c :: cs) :: cl') ++ ['\\'] := by
          rw [hjoin, htail]
          rfl
        rw [hback]
        exact assembleNorm_noneRel_joinSep _ hc hsf (by simp)
      · show win32Normalize (c :: d :: (rest ++ ['\\'])) = c :: d :: (rest ++ ['\\'])
        rw [wN_caseD_eq c d (rest ++ ['\\']) hcsep (h2gen d rest htail)]
        have hback : c :: d :: (rest ++ ['\\']) =
            joinSegs ((c :: cs) :: cl') ++ ['\\'] := by
          rw [hjoin, htail]
          rfl
        have hq : (c :: d :: (rest ++ ['\\'])).getLast? = some '\\' := by
          rw [hback, List.getLast?_append_of_ne_nil _ (by simp)]
          rfl
        rw [getLast_spec _ (by simp) _ hq, show isPathSep '\\' = true from rfl, hback]
        exact assembleNorm_noneRel_joinSep _ hc hsf (by simp)

/-- Branch equation: drive root followed by any separator. -/
theorem wN_driveSep_eq (l : Char) (hl : isAsciiLetter l = true) (c3 : Char)
    (hc3 : isPathSep c3 = true) (r2 : List Char) :
    win32Normalize (l :: ':' :: c3 :: r2) =
      assembleNorm (some [l, ':']) true
        (isPathSep ((l :: ':' :: c3 :: r2).getLast (by simp))) r2 := by
  unfold win32Normalize
  dsimp only
  rw [if_neg (by simp [letter_not_sep l hl]), if_pos ⟨hl, rfl⟩, if_pos hc3]

/-- Output forms of `assembleNorm` for a rootless relative input. -/
theorem assembleNorm_noneRel_out (ls : Bool) (s : List Char) (hne : s ≠ []) :
    (processSegs true (splitSegs s) = [] ∧
      assembleNorm none false ls s = if ls then ['.', '\\'] else ['.']) ∨
    (processSegs true (splitSegs s) ≠ [] ∧
      assembleNorm none false ls s =
        joinSegs (processSegs true (splitSegs s)) ++ if ls then ['\\'] else []) := by
  set cl := processSegs true (splitSegs s) with hcl
  have hns : normalizeString s true = joinSegs cl := rfl
  by_cases h0 : cl = []
  · have hns0 : normalizeString s true = [] := by rw [hns, h0]; rfl
    left
    refine ⟨h0, ?_⟩
    cases ls <;> simp [assembleNorm, hne, hns0]
  · have hjne : joinSegs cl ≠ [] :=
      joinSegs_ne_nil cl h0 (clean_ne_nil true cl
        (processSegs_clean true (splitSegs s) (splitSegs_sepFree s)).1)
    right
    refine ⟨h0, ?_⟩
    cases ls <;> simp [assembleNorm, hne, hns, hjne]

/-- Output forms of `assembleNorm` for an absolute device root. -/
theorem assembleNorm_someAbs_out (d : List Char) (ls : Bool) (r2 : List Char) :
    ∃ t, assembleNorm (some d) true ls r2 = d ++ '\\' :: t ∧
      (t = [] ∨ ∃ cl, CleanSegs false cl ∧ (∀ x ∈ cl, sepFreeSeg x) ∧ cl ≠ [] ∧
        (t = joinSegs cl ∨ t = joinSegs cl ++ ['\\'])) := by
  by_cases h0 : r2 = []
  · subst h0
    exact ⟨[], by rw [assembleNorm_someAbs_nil], Or.inl rfl⟩
  · have hclean := processSegs_clean false (splitSegs r2) (splitSegs_sepFree r2)
    set cl := processSegs false (splitSegs r2) with hcl
    have hns : normalizeString r2 false = joinSegs cl := rfl
    by_cases hcl0 : cl = []
    · have hns0 : normalizeString r2 false = [] := by rw [hns, hcl0]; rfl
      refine ⟨[], ?_, Or.inl rfl⟩
      cases ls <;> simp [assembleNorm, h0, hns0]
    · have hjne := joinSegs_ne_nil cl hcl0 (clean_ne_nil false cl hclean.1)
      cases ls with
      | false =>
        exact ⟨joinSegs cl, by simp [assembleNorm, h0, hns, hjne],
          Or.inr ⟨cl, hclean.1, hclean.2, hcl0, Or.inl rfl⟩⟩
      | true =>
        exact ⟨joinSegs cl ++ ['\\'], by simp [assembleNorm, h0, hns, hjne],
          Or.inr ⟨cl, hclean.1, hclean.2, hcl0, Or.inr rfl⟩⟩

/-- For a relative device root the resolved tail starts with a
non-separator character. -/
theorem assembleNorm_someRel_head (d : List Char) (ls : Bool) (restIn : List Char)
    (hne : restIn ≠ []) :
    ∃ hd tl, assembleNorm (some d) false ls restIn = d ++ hd :: tl ∧
      isPathSep hd = false := by
  have hclean := processSegs_clean true (splitSegs restIn) (splitSegs_sepFree restIn)
  set cl := processSegs true (splitSegs restIn) with hcl
  have hns : normalizeString restIn true = joinSegs cl := rfl
  by_cases h0 : cl = []
  · have hns0 : normalizeString restIn true = [] := by rw [hns, h0]; rfl
    cases ls with
    | false => exact ⟨'.', [], by simp [assembleNorm, hne, hns0], rfl⟩
    | true => exact ⟨'.', ['\\'], by simp [assembleNorm, hne, hns0], rfl⟩
  · have hnn := clean_ne_nil true cl hclean.1
    have hjne : joinSegs cl ≠ [] := joinSegs_ne_nil cl h0 hnn
    obtain ⟨h0seg, cl', hshape⟩ : ∃ h0seg cl', cl = h0seg :: cl' := by
      cases hx : cl with
      | nil => exact absurd hx h0
      | cons x xs => exact ⟨x, xs, rfl⟩
    obtain ⟨c, cs, hcseg⟩ : ∃ c cs, h0seg = c :: cs := by
      cases hx : h0seg with
      | nil =>
        exfalso
        have hmem : ([] : List Char) ∈ cl := by
          rw [hshape, ← hx]
          exact List.mem_cons_self _ _
        exact hnn [] hmem rfl
      | cons x xs => exact ⟨x, xs, rfl⟩
    have hcnonsep : isPathSep c = false := by
      refine hclean.2 (c :: cs) ?_ c (List.mem_cons_self _ _)
      rw [← hcseg, hshape]
      exact List.mem_cons_self _ _
    have hj : joinSegs cl = c :: joinTail cs cl' := by
      rw [hshape, hcseg]
      exact joinSegs_cons_eq c cs cl'
    cases ls with
    | false =>
      refine ⟨c, joinTail cs cl', ?_, hcnonsep⟩
      have hout : assembleNorm (some d) false false restIn = d ++ joinSegs cl := by
        simp [assembleNorm, hne, hns, hjne]
      rw [hout, hj]
    | true =>
      refine ⟨c, joinTail cs cl' ++ ['\\'], ?_, hcnonsep⟩
      have hout : assembleNorm (some d) false true restIn =
          d ++ (joinSegs cl ++ ['\\']) := by
        simp [assembleNorm, hne, hns, hjne]
      rw [hout, hj]
      simp

/-- `joinTail` after peeling two characters off the head segment. -/
theorem joinTail_cons (e : Char) (cs : List Char) (cl' : List (List Char)) :
    joinTail (e :: cs) cl' = e :: joinTail cs cl' := by
  cases cl' with
  | nil => rfl
  | cons t1 ts => rfl

/-- A clean relative join (with optional trailing separator) that is not of
drive-relative form is a good shape. -/
theorem classify_join (c : Char) (cs : List Char) (cl' : List (List Char))
    (ls : Bool) (hcln : CleanSegs true ((c :: cs) :: cl'))
    (hsf : ∀ x ∈ (c :: cs) :: cl', sepFreeSeg x)
    (hdr : driveRelFormB (joinSegs ((c :: cs) :: cl') ++
      if ls then ['\\'] else []) = false) :
    GoodShape (joinSegs ((c :: cs) :: cl') ++ if ls then ['\\'] else []) := by
  have hj := joinSegs_cons_eq c cs cl'
  cases cs with
  | nil =>
    have hnd : ∀ l rest2, ((([c] : List Char)) :: cl').head? =
        some (l :: ':' :: rest2) → isAsciiLetter l = false := by
      intro l rest2 hh
      have h1 : ([c] : List Char) = l :: ':' :: rest2 := Option.some.inj hh
      cases (List.tail_eq_of_cons_eq h1)
    cases ls with
    | false =>
      rw [if_neg (show ¬ (false = true) by decide), List.append_nil]
      exact GoodShape.relJoin _ _ hcln hsf (by simp) hnd (Or.inl rfl)
    | true =>
      rw [if_pos rfl]
      exact GoodShape.relJoin _ _ hcln hsf (by simp) hnd (Or.inr rfl)
  | cons e cs2 =>
    by_cases hdrive : isAsciiLetter c = true ∧ e = ':'
    · obtain ⟨hlc, rfl⟩ := hdrive
      cases cs2 with
      | cons f cs3 =>
        exfalso
        have hf : isPathSep f = false :=
          hsf _ (List.mem_cons_self _ _) f (by simp)
        have hj2 : joinSegs ((c :: ':' :: f :: cs3) :: cl') =
            c :: ':' :: f :: joinTail cs3 cl' := by
          rw [joinSegs_cons_eq, joinTail_cons, joinTail_cons]
        rw [hj2] at hdr
        cases ls with
        | false =>
          rw [if_neg (show ¬ (false = true) by decide), List.append_nil] at hdr
          simp [driveRelFormB, hlc, hf] at hdr
        | true =>
          rw [if_pos rfl] at hdr
          have hsh : (c :: ':' :: f :: joinTail cs3 cl') ++ ['\\'] =
              c :: ':' :: f :: (joinTail cs3 cl' ++ ['\\']) := rfl
          rw [hsh] at hdr
          simp [driveRelFormB, hlc, hf] at hdr
      | nil =>
        cases cl' with
        | nil =>
          cases ls with
          | false =>
            exfalso
            rw [if_neg (show ¬ (false = true) by decide), List.append_nil] at hdr
            rw [show joinSegs [[c, ':']] = [c, ':'] from rfl] at hdr
            simp [driveRelFormB, hlc] at hdr
          | true =>
            rw [if_pos rfl]
            rw [show joinSegs [[c, ':']] ++ ['\\'] = [c, ':', '\\'] from rfl]
            exact GoodShape.driveAbsNil c hlc
        | cons t1 ts =>
          have hnotdd : ([c, ':'] : List Char) ≠ dd := by
            intro h
            have h2 := List.tail_eq_of_cons_eq h
            have h3 := List.head_eq_of_cons_eq h2
            exact absurd h3 (by decide)
          have hnormals := clean_head_normal true [c, ':'] (t1 :: ts) hcln hnotdd
          have hcl2 : CleanSegs false (t1 :: ts) :=
            clean_of_normals false _
              (fun s hs => hnormals s (List.mem_cons_of_mem _ hs))
          have hsf2 : ∀ x ∈ t1 :: ts, sepFreeSeg x :=
            fun x hx => hsf x (List.mem_cons_of_mem _ hx)
          have hj3 : joinSegs ([c, ':'] :: t1 :: ts) =
              c :: ':' :: '\\' :: joinSegs (t1 :: ts) := rfl
          cases ls with
          | false =>
            rw [if_neg (show ¬ (false = true) by decide), List.append_nil, hj3]
            exact GoodShape.driveAbs c (t1 :: ts) _ hlc hcl2 hsf2 (by simp)
              (Or.inl rfl)
          | true =>
            rw [if_pos rfl, hj3]
            show GoodShape (c :: ':' :: '\\' :: (joinSegs (t1 :: ts) ++ ['\\']))
            exact GoodShape.driveAbs c (t1 :: ts) _ hlc hcl2 hsf2 (by simp)
              (Or.inr rfl)
    · have hnd : ∀ l rest2, ((c :: e :: cs2) :: cl').head? =
          some (l :: ':' :: rest2) → isAsciiLetter l = false := by
        intro l rest2 hh
        have h1 : (c :: e :: cs2 : List Char) = l :: ':' :: rest2 :=
          Option.some.inj hh
        have hcl0 : c = l := List.head_eq_of_cons_eq h1
        have he : e = ':' :=
          List.head_eq_of_cons_eq (List.tail_eq_of_cons_eq h1)
        subst hcl0
        rw [Bool.eq_false_iff]
        intro hlett
        exact hdrive ⟨hlett, he⟩
      cases ls with
      | false =>
        rw [if_neg (show ¬ (false = true) by decide), List.append_nil]
        exact GoodShape.relJoin _ _ hcln hsf (by simp) hnd (Or.inl rfl)
      | true =>
        rw [if_pos rfl]
        exact GoodShape.relJoin _ _ hcln hsf (by simp) hnd (Or.inr rfl)

/-- Every result of `win32Normalize` on an input without a leading
separator is a good shape, unless it is of drive-relative form. -/
theorem outGood (s : List Char) (hlead : notSepLead s)
    (hdr : driveRelFormB (win32Normalize s) = false) :
    GoodShape (win32Normalize s) := by
  cases s with
  | nil => exact GoodShape.dot
  | cons c1 rest1 =>
    have hc1 : isPathSep c1 = false := hlead c1 rfl
    cases rest1 with
    | nil =>
      rw [wN_single_eq c1 hc1]
      exact GoodShape.single c1 hc1
    | cons c2 r =>
      by_cases hdrv : isAsciiLetter c1 = true ∧ c2 = ':'
      · obtain ⟨hl, rfl⟩ := hdrv
        cases r with
        | nil =>
          exfalso
          rw [wN_driveNil_eq c1 hl] at hdr
          simp [driveRelFormB, hl] at hdr
          exact absurd hdr (by decide)
        | cons c3 r2 =>
          by_cases hc3 : isPathSep c3 = true
          · rw [wN_driveSep_eq c1 hl c3 hc3 r2]
            obtain ⟨t, heq, hts⟩ :=
              assembleNorm_someAbs_out [c1, ':']
                (isPathSep ((c1 :: ':' :: c3 :: r2).getLast (by simp))) r2
            rw [heq]
            show GoodShape (c1 :: ':' :: '\\' :: t)
            rcases hts with rfl | ⟨cl, hcln, hsf2, hclne, hor⟩
            · exact GoodShape.driveAbsNil c1 hl
            · exact GoodShape.driveAbs c1 cl t hl hcln hsf2 hclne hor
          · exfalso
            rw [Bool.not_eq_true] at hc3
            rw [wN_driveRel_eq c1 hl c3 r2 hc3] at hdr
            obtain ⟨hd, tl, heq, hhd⟩ :=
              assembleNorm_someRel_head [c1, ':']
                (isPathSep ((c1 :: ':' :: c3 :: r2).getLast (by simp)))
                (c3 :: r2) (by simp)
            rw [heq] at hdr
            rw [show ([c1, ':'] ++ hd :: tl : List Char) =
              c1 :: ':' :: hd :: tl from rfl] at hdr
            simp [driveRelFormB, hl, hhd] at hdr
      · rw [wN_caseD_eq c1 c2 r hc1 hdrv] at hdr ⊢
        have hclean := processSegs_clean true (splitSegs (c1 :: c2 :: r))
          (splitSegs_sepFree (c1 :: c2 :: r))
        rcases assembleNorm_noneRel_out
            (isPathSep ((c1 :: c2 :: r).getLast (by simp))) (c1 :: c2 :: r)
            (by simp) with ⟨hcl0, heq⟩ | ⟨hclne, heq⟩
        · rw [heq]
          cases hls : isPathSep ((c1 :: c2 :: r).getLast (by simp)) with
          | false =>
            rw [if_neg (show ¬ (false = true) by decide)]
            exact GoodShape.dot
          | true =>
            rw [if_pos rfl]
            exact GoodShape.dotSep
        · rw [heq] at hdr ⊢
          have hnn := clean_ne_nil true _ hclean.1
          obtain ⟨h0seg, cl', hshape⟩ : ∃ h0seg cl',
              processSegs true (splitSegs (c1 :: c2 :: r)) = h0seg :: cl' := by
            cases hx : processSegs true (splitSegs (c1 :: c2 :: r)) with
            | nil => exact absurd hx hclne
            | cons x xs => exact ⟨x, xs, rfl⟩
          obtain ⟨c, cs, hcseg⟩ : ∃ c cs, h0seg = c :: cs := by
            cases hx : h0seg with
            | nil =>
              exfalso
              have hmem : ([] : List Char) ∈
                  processSegs true (splitSegs (c1 :: c2 :: r)) := by
                rw [hshape, ← hx]
                exact List.mem_cons_self _ _
              exact hnn [] hmem rfl
            | cons x xs => exact ⟨x, xs, rfl⟩
          subst hcseg
          rw [hshape] at hdr ⊢
          refine classify_join c cs cl' _ ?_ ?_ hdr
          · rw [← hshape]
            exact hclean.1
          · rw [← hshape]
            exact hclean.2

/-- Good shapes contain no forward slash. -/
theorem goodSlashFree (r : List Char) (hg : GoodShape r) : ∀ c ∈ r, c ≠ '/' := by
  have hjoinchars : ∀ (cl : List (List Char)), (∀ x ∈ cl, sepFreeSeg x) →
      ∀ c ∈ joinSegs cl, c ≠ '/' := by
    intro cl hsf c hc
    rcases joinSegs_chars cl c hc with ⟨u, hu, hcu⟩ | rfl
    · intro h
      subst h
      have := hsf u hu '/' hcu
      simp [isPathSep] at this
    · intro h; cases h
  cases hg with
  | dot => intro c hc h; subst h; simp at hc
  | dotSep => intro c hc h; subst h; simp at hc
  | single c0 h0 =>
    intro c hc h
    subst h
    rw [List.mem_singleton] at hc
    subst hc
    simp [isPathSep] at h0
  | driveAbsNil l hl =>
    intro c hc h
    subst h
    rcases List.mem_cons.mp hc with rfl | hc2
    · simp [isAsciiLetter] at hl
    · simp at hc2
  | driveAbs l cl t hl hcln hsf hne ht =>
    intro c hc h
    subst h
    rcases List.mem_cons.mp hc with rfl | hc2
    · simp [isAsciiLetter] at hl
    · rcases List.mem_cons.mp hc2 with h3 | hc3
      · cases h3
      · rcases List.mem_cons.mp hc3 with h4 | hc4
        · cases h4
        · rcases ht with rfl | rfl
          · exact hjoinchars cl hsf _ hc4 rfl
          · rcases List.mem_append.mp hc4 with h5 | h5
            · exact hjoinchars cl hsf _ h5 rfl
            · simp at h5
  | relJoin cl t hcln hsf hne hnd ht =>
    intro c hc h
    subst h
    rcases ht with rfl | rfl
    · exact hjoinchars cl hsf _ hc rfl
    · rcases List.mem_append.mp hc with h5 | h5
      · exact hjoinchars cl hsf _ h5 rfl
      · simp at h5

/-- Good shapes have a non-separator head. -/
theorem goodNotSepLead (r : List Char) (hg : GoodShape r) : notSepLead r := by
  cases hg with
  | dot => intro c hc; cases Option.some.inj hc; rfl
  | dotSep => intro c hc; cases Option.some.inj hc; rfl
  | single c0 h0 => intro c hc; cases Option.some.inj hc; exact h0
  | driveAbsNil l hl => intro c hc; cases Option.some.inj hc; exact letter_not_sep _ hl
  | driveAbs l cl t hl hcln hsf hne ht =>
    intro c hc; cases Option.some.inj hc; exact letter_not_sep _ hl
  | relJoin cl t hcln hsf hne hnd ht =>
    have hnn := clean_ne_nil true cl hcln
    obtain ⟨h0seg, cl', rfl⟩ : ∃ h0seg cl', cl = h0seg :: cl' := by
      cases cl with
      | nil => cases hne rfl
      | cons x xs => exact ⟨x, xs, rfl⟩
    obtain ⟨c0, cs, rfl⟩ : ∃ c0 cs, h0seg = c0 :: cs := by
      cases h0seg with
      | nil => exact absurd rfl (hnn [] (List.mem_cons_self _ _))
      | cons x xs => exact ⟨x, xs, rfl⟩
    have hc0 : isPathSep c0 = false :=
      hsf _ (List.mem_cons_self _ _) c0 (List.mem_cons_self _ _)
    have hj := joinSegs_cons_eq c0 cs cl'
    intro c hc
    rcases ht with rfl | rfl
    · rw [hj] at hc
      cases Option.some.inj hc
      exact hc0
    · rw [hj] at hc
      rw [show (c0 :: joinTail cs cl') ++ ['\\'] =
        c0 :: (joinTail cs cl' ++ ['\\']) from rfl] at hc
      cases Option.some.inj hc
      exact hc0

/-- `gitbashSplit` misses lists whose head is not a backslash. -/
theorem gitbashSplit_none (n : List Char)
    (h : ∀ c, n.head? = some c → c ≠ '\\') : gitbashSplit n = none := by
  cases n with
  | nil => rfl
  | cons a rest =>
    have ha := h a rfl
    cases rest with
    | nil => rfl
    | cons b rest2 =>
      cases rest2 with
      | nil => rfl
      | cons c rest3 =>
        unfold gitbashSplit
        dsimp only
        rw [if_neg (by rintro ⟨h1, -⟩; exact ha h1)]

/-- `listStartsWith` with a backslash fails on a non-backslash head. -/
theorem startsWith_bs_false (n : List Char)
    (h : ∀ c, n.head? = some c → c ≠ '\\') : listStartsWith n ['\\'] = false := by
  cases n with
  | nil => rfl
  | cons a rest =>
    show (decide (a = '\\') && listStartsWith rest []) = false
    simp [h a rfl]

/-- The slash-replacement map is the identity on slash-free lists. -/
theorem mapSlash_id (r : List Char) (h : ∀ c ∈ r, c ≠ '/') :
    r.map (fun c => if c = '/' then '\\' else c) = r := by
  induction r with
  | nil => rfl
  | cons a as ih =>
    rw [List.map_cons, if_neg (h a (List.mem_cons_self _ _)),
      ih (fun c hc => h c (List.mem_cons_of_mem a hc))]

/-- On a good shape, `normalizeWindowsPath` reduces to `path.normalize` and
is therefore the identity. -/
theorem nwpL_fix (r : List Char) (hg : GoodShape r) : nwpL r = r := by
  have hhead : ∀ c, r.head? = some c → c ≠ '\\' := by
    intro c hc heq
    subst heq
    have := goodNotSepLead r hg _ hc
    simp [isPathSep] at this
  unfold nwpL
  rw [mapSlash_id r (goodSlashFree r hg)]
  dsimp only
  rw [gitbashSplit_none r hhead]
  show (if driveAbsTest r = true then win32Normalize r
    else if listStartsWith r ['\\'] = true then
      win32Normalize ('C' :: ':' :: r) else win32Normalize r) = r
  rw [startsWith_bs_false r hhead]
  rw [if_neg (show ¬ (false = true) by decide), ite_self]
  exact fixGood r hg

/-- A backslash head makes `listStartsWith` with a backslash succeed. -/
theorem startsWith_bs_of_head (l : List Char) (h : l.head? = some '\\') :
    listStartsWith l ['\\'] = true := by
  cases l with
  | nil => cases h
  | cons x xs =>
    have hx : x = '\\' := Option.some.inj h
    subst hx
    show (decide ('\\' = '\\') && listStartsWith xs []) = true
    have h2 : listStartsWith xs [] = true := by cases xs <;> rfl
    simp [h2]

/-- The slash-replacement map never produces a forward slash. -/
theorem mapSlash_no_slash (p : List Char) :
    ∀ c ∈ p.map (fun c => if c = '/' then '\\' else c), c ≠ '/' := by
  intro c hc
  rcases List.mem_map.mp hc with ⟨x, -, rfl⟩
  by_cases hx : x = '/'
  · rw [if_pos hx]; decide
  · rw [if_neg hx]; exact hx

/-- A successful Git-Bash match captures an ASCII letter. -/
theorem gitbashSplit_letter (n : List Char) (l : Char) (rest : List Char)
    (h : gitbashSplit n = some (l, rest)) : isAsciiLetter l = true := by
  cases n with
  | nil => cases h
  | cons a r1 =>
    cases r1 with
    | nil => cases h
    | cons b r2 =>
      cases r2 with
      | nil => cases h
      | cons c r3 =>
        unfold gitbashSplit at h
        dsimp only at h
        by_cases hcond : a = '\\' ∧ isAsciiLetter b = true ∧ c = '\\'
        · rw [if_pos hcond] at h
          have hb : b = l := congrArg Prod.fst (Option.some.inj h)
          rw [← hb]
          exact hcond.2.1
        · rw [if_neg hcond] at h
          cases h

/-- A positive drive-absolute test implies a non-separator (letter) head. -/
theorem driveAbsTest_lead (n : List Char) (h : driveAbsTest n = true) :
    notSepLead n := by
  cases n with
  | nil => cases h
  | cons l r1 =>
    cases r1 with
    | nil => cases h
    | cons a r2 =>
      cases r2 with
      | nil => cases h
      | cons b r3 =>
        cases r3 with
        | nil => cases h
        | cons c r4 =>
          have hl : isAsciiLetter l = true := by
            have h2 : (isAsciiLetter l && decide (a = ':') && decide (b = '\\')
                && !isLineTerm c) = true := h
            rw [Bool.and_eq_true, Bool.and_eq_true, Bool.and_eq_true] at h2
            exact h2.1.1.1
          intro c0 hc0
          cases Option.some.inj hc0
          exact letter_not_sep _ hl

/-- `normalizeWindowsPath` always ends in a `path.normalize` call whose
argument has no leading separator. -/
theorem nwpL_inner (p : List Char) :
    ∃ s, nwpL p = win32Normalize s ∧ notSepLead s := by
  unfold nwpL
  dsimp only
  set n := p.map (fun c => if c = '/' then '\\' else c) with hn
  have hnos : ∀ c ∈ n, c ≠ '/' := by
    rw [hn]
    exact mapSlash_no_slash p
  cases hgb : gitbashSplit n with
  | some pr =>
    obtain ⟨l, rest⟩ := pr
    refine ⟨upperChar l :: ':' :: '\\' :: rest, rfl, ?_⟩
    intro c hc
    cases Option.some.inj hc
    exact upperChar_not_sep l (gitbashSplit_letter n l rest hgb)
  | none =>
    by_cases hd : driveAbsTest n = true
    · rw [if_pos hd]
      exact ⟨n, rfl, driveAbsTest_lead n hd⟩
    · rw [if_neg hd]
      by_cases hbs : listStartsWith n ['\\'] = true
      · rw [if_pos hbs]
        refine ⟨'C' :: ':' :: n, rfl, ?_⟩
        intro c hc
        cases Option.some.inj hc
        rfl
      · rw [if_neg hbs]
        refine ⟨n, rfl, ?_⟩
        intro c hc
        have hslash : c ≠ '/' := hnos c (List.mem_of_mem_head? hc)
        have hbs2 : c ≠ '\\' := by
          intro heq
          subst heq
          exact hbs (startsWith_bs_of_head n hc)
        simp [isPathSep, hbs2, hslash]

/-- Idempotence of `normalizeWindowsPath` away from drive-relative
results. -/
theorem nwpL_idem (p : List Char) (h : driveRelFormB (nwpL p) = false) :
    nwpL (nwpL p) = nwpL p := by
  obtain ⟨s, hs, hlead⟩ := nwpL_inner p
  rw [hs] at h ⊢
  exact nwpL_fix _ (outGood s hlead h)

/-- C8 counterexample: `normalizeWindowsPath` is not idempotent — the input
`./a:` normalizes to the bare drive specifier `a:`, and a second application
turns that into `a:.`. -/
theorem C8_counterexample :
    normalizeWindowsPath "./a:" = "a:" ∧
    normalizeWindowsPath (normalizeWindowsPath "./a:") = "a:." ∧
    normalizeWindowsPath (normalizeWindowsPath "./a:") ≠
      normalizeWindowsPath "./a:" := by
  refine ⟨rfl, rfl, ?_⟩
  decide

/-- C8 (amended): `normalizeWindowsPath` is idempotent on every input whose
result is not drive-relative (a letter and a colon not followed by a
separator); in particular the spellings `C:/x`, `C:\x`, `/c/x`, `\x` all
map to `C:\x` and `C:\\x\\` maps to `C:\x\`, the same canonical string
modulo the trailing separator.  On a drive-relative result a second
application can differ (e.g. `./a:` ↦ `a:` ↦ `a:.`). -/
theorem C8_normalize_idem :
    (∀ p : String, driveRelFormB (normalizeWindowsPath p).data = false →
      normalizeWindowsPath (normalizeWindowsPath p) = normalizeWindowsPath p) ∧
    normalizeWindowsPath "C:/x" = "C:\\x" ∧
    normalizeWindowsPath "C:\\x" = "C:\\x" ∧
    normalizeWindowsPath "/c/x" = "C:\\x" ∧
    normalizeWindowsPath "\\x" = "C:\\x" ∧
    normalizeWindowsPath "C:\\\\x\\\\" = "C:\\x\\" ∧
    dropTrailingSeps (normalizeWindowsPath "C:\\\\x\\\\").data =
      (normalizeWindowsPath "C:\\x").data := by
  refine ⟨?_, rfl, rfl, rfl, rfl, rfl, rfl⟩
  intro p hdr
  exact congrArg (fun l => (⟨l⟩ : String)) (nwpL_idem p.data hdr)

/-- C8 witness: the amended idempotence applied to `C:/x`. -/
theorem C8_witness :
    normalizeWindowsPath (normalizeWindowsPath "C:/x") =
      normalizeWindowsPath "C:/x" :=
  C8_normalize_idem.1 "C:/x" (by decide)

/-- One `napStep` preserves distinctness and the no-nesting invariant. -/
theorem napStep_inv (res : List (List Char)) (dir : List Char)
    (h1 : res.Nodup) (h2 : NoNest res) :
    (napStep res dir).Nodup ∧ NoNest (napStep res dir) := by
  unfold napStep
  by_cases hc : res.contains dir = true
  · rw [if_pos hc]
    exact ⟨h1, h2⟩
  · rw [if_neg hc]
    by_cases ha : res.any (fun parent => listStartsWith dir (parent ++ ['\\'])) = true
    · rw [if_pos ha]
      exact ⟨h1, h2⟩
    · rw [if_neg ha]
      have hdirnotin : dir ∉ res := fun hmem => hc (List.elem_iff.mpr hmem)
      rw [Bool.not_eq_true, List.any_eq_false] at ha
      constructor
      · rw [List.nodup_append]
        refine ⟨h1.filter _, List.nodup_singleton dir, ?_⟩
        intro x hx hx2
        rw [List.mem_singleton] at hx2
        subst hx2
        exact hdirnotin (List.mem_of_mem_filter hx)
      · intro a hamem b hbmem hab
        rcases List.mem_append.mp hamem with haf | hax
        · rcases List.mem_append.mp hbmem with hbf | hbx
          · exact h2 a (List.mem_of_mem_filter haf) b (List.mem_of_mem_filter hbf) hab
          · rw [List.mem_singleton] at hbx
            subst hbx
            have := List.of_mem_filter haf
            simpa using this
        · rw [List.mem_singleton] at hax
          subst hax
          rcases List.mem_append.mp hbmem with hbf | hbx
          · have hb := List.mem_of_mem_filter hbf
            have := ha b hb
            simpa using this
          · rw [List.mem_singleton] at hbx
            exact absurd hbx.symm hab

/-- Folding `napStep` preserves the invariants. -/
theorem foldl_napStep_inv (dirs : List (List Char)) :
    ∀ res, res.Nodup → NoNest res →
      (dirs.foldl napStep res).Nodup ∧ NoNest (dirs.foldl napStep res) := by
  induction dirs with
  | nil => intro res h1 h2; exact ⟨h1, h2⟩
  | cons d ds ih =>
    intro res h1 h2
    rw [List.foldl_cons]
    obtain ⟨h1s, h2s⟩ := napStep_inv res d h1 h2
    exact ih _ h1s h2s

/-- A list already satisfying the invariants passes through the fold
unchanged. -/
theorem foldl_napStep_id (rest : List (List Char)) :
    ∀ acc, (acc ++ rest).Nodup → NoNest (acc ++ rest) →
      rest.foldl napStep acc = acc ++ rest := by
  induction rest with
  | nil => intro acc _ _; rw [List.append_nil]; rfl
  | cons d ds ih =>
    intro acc h1 h2
    have hdnotacc : d ∉ acc := by
      intro hmem
      rw [List.nodup_append] at h1
      exact h1.2.2 hmem (List.mem_cons_self d ds)
    have hstep : napStep acc d = acc ++ [d] := by
      unfold napStep
      rw [if_neg (fun hc => hdnotacc (List.elem_iff.mp hc))]
      rw [if_neg ?hany]
      case hany =>
        intro hany
        rw [List.any_eq_true] at hany
        obtain ⟨parent, hp, hsw⟩ := hany
        have hne : d ≠ parent := fun he => hdnotacc (he ▸ hp)
        have := h2 d (List.mem_append.mpr (Or.inr (List.mem_cons_self d ds)))
          parent (List.mem_append.mpr (Or.inl hp)) hne
        rw [this] at hsw
        cases hsw
      have hfil : acc.filter (fun r => !listStartsWith r (d ++ ['\\'])) = acc := by
        apply List.filter_eq_self.mpr
        intro r hr
        have hne : r ≠ d := fun he => hdnotacc (he ▸ hr)
        have := h2 r (List.mem_append.mpr (Or.inl hr)) d
          (List.mem_append.mpr (Or.inr (List.mem_cons_self d ds))) hne
        simp [this]
      rw [hfil]
    rw [List.foldl_cons, hstep]
    have hassoc : acc ++ d :: ds = (acc ++ [d]) ++ ds := by simp
    rw [hassoc] at h1 h2
    rw [ih (acc ++ [d]) h1 h2]
    simp

/-- Mapping a function that fixes every element is the identity. -/
theorem mapFix (f : List Char → List Char) (res : List (List Char))
    (h : ∀ l ∈ res, f l = l) : res.map f = res := by
  induction res with
  | nil => rfl
  | cons a as ih =>
    rw [List.map_cons, h a (List.mem_cons_self a as),
      ih (fun l hl => h l (List.mem_cons_of_mem a hl))]

/-- C7 counterexample: a trailing-separator root defeats the nesting check —
`C:\foo\` and `C:\foo\bar` both survive although the first is a proper
ancestor directory of the second — and `normalizeAllowedPaths` is not
idempotent: `["./a:"]` yields `["a:"]`, which re-normalizes to `["a:."]`. -/
theorem C7_counterexample :
    normalizeAllowedPaths ["C:\\foo\\", "C:\\foo\\bar"] =
      ["c:\\foo\\", "c:\\foo\\bar"] ∧
    ("c:\\foo\\" : String) ≠ "c:\\foo\\bar" ∧
    listStartsWith ("c:\\foo\\bar" : String).data
      (dropTrailingSeps ("c:\\foo\\" : String).data ++ ['\\']) = true ∧
    normalizeAllowedPaths (normalizeAllowedPaths ["./a:"]) ≠
      normalizeAllowedPaths ["./a:"] := by
  refine ⟨rfl, by decide, rfl, by decide⟩

/-- C7 (amended): the result of `normalizeAllowedPaths` never contains an
entry that extends another entry past a separator (the raw boundary the
matcher checks), and the function is idempotent on every list whose
normalized entries are themselves normalization-stable; full semantic
ancestor-freeness fails for roots with trailing separators, and full
idempotence fails for inputs normalizing to a bare drive specifier. -/
theorem C7_allowed_paths :
    (∀ paths : List String, ∀ a ∈ normalizeAllowedPaths paths,
        ∀ b ∈ normalizeAllowedPaths paths, a ≠ b →
        listStartsWith a.data (b.data ++ ['\\']) = false) ∧
    (∀ paths : List String,
        (∀ q ∈ normalizeAllowedPaths paths, lowerS (normalizeWindowsPath q) = q) →
        normalizeAllowedPaths (normalizeAllowedPaths paths) =
          normalizeAllowedPaths paths) := by
  have hbase : ∀ paths : List String,
      ((paths.map fun p => lowerL (nwpL p.data)).foldl napStep []).Nodup ∧
        NoNest ((paths.map fun p => lowerL (nwpL p.data)).foldl napStep []) := by
    intro paths
    refine foldl_napStep_inv _ [] List.nodup_nil ?_
    intro a ha
    cases ha
  constructor
  · intro paths a hamem b hbmem hab
    obtain ⟨la, hla, rfl⟩ := List.mem_map.mp hamem
    obtain ⟨lb, hlb, rfl⟩ := List.mem_map.mp hbmem
    have hne : la ≠ lb := fun he => hab (by rw [he])
    exact (hbase paths).2 la hla lb hlb hne
  · intro paths hfix
    have hinv := hbase paths
    have hres : normalizeAllowedPaths paths =
        ((paths.map fun p => lowerL (nwpL p.data)).foldl napStep []).map
          (fun l => (⟨l⟩ : String)) := rfl
    have hfix2 : ∀ l ∈ (paths.map fun p => lowerL (nwpL p.data)).foldl napStep [],
        lowerL (nwpL l) = l := by
      intro l hl
      have hq := hfix ⟨l⟩ (by rw [hres]; exact List.mem_map.mpr ⟨l, hl, rfl⟩)
      exact (strMk_inj _ _).mp hq
    rw [hres]
    show (((((paths.map fun p => lowerL (nwpL p.data)).foldl napStep []).map
        (fun l => (⟨l⟩ : String))).map (fun p => lowerL (nwpL p.data))).foldl
        napStep []).map (fun l => (⟨l⟩ : String)) =
      ((paths.map fun p => lowerL (nwpL p.data)).foldl napStep []).map
        (fun l => (⟨l⟩ : String))
    rw [List.map_map]
    rw [mapFix ((fun p => lowerL (nwpL (String.data p))) ∘ fun l => (⟨l⟩ : String))
      _ (fun l hl => hfix2 l hl)]
    have hid := foldl_napStep_id
      ((paths.map fun p => lowerL (nwpL p.data)).foldl napStep []) []
      (by simpa using hinv.1) (by simpa using hinv.2)
    rw [hid]
    rfl

/-- C7 witness: the amended statement applied to two stable roots. -/
theorem C7_witness :
    normalizeAllowedPaths (normalizeAllowedPaths ["C:\\work", "C:/other"]) =
      normalizeAllowedPaths ["C:\\work", "C:/other"] :=
  C7_allowed_paths.2 ["C:\\work", "C:/other"] (by decide)
